import Mathlib

/-! Verification of the CSV aggregation core of BestNextRide-web.

The two `processCSVData` functions of the dashboard component (the plain
variant and the styled variant) are modelled as pure functions over
`List Char`.  JavaScript `Date` parsing of the raw timestamp field is
host-defined, so it enters the model as an explicit parameter
`dateParse : Str → Option Int` giving the epoch-millisecond value of
`new Date(s).getTime()` (`none` models an Invalid Date).  The runtime
timezone is taken to be UTC, `toISOString` round-trips through the stored
millisecond value (so stored ISO strings are modelled by their
millisecond value), and `toISOString` applied to an invalid date throws a
RangeError, modelled by `Option` (a `none` overall result means the
JavaScript function threw). -/

abbrev Str := List Char

/-- Whitespace recognised by `String.prototype.trim` (common subset). -/
def isWS (c : Char) : Bool :=
  c == ' ' || c == '\t' || c == '\n' || c == '\r' || c == '\x0b' || c == '\x0c'

/-- `s.trim()`. -/
def jsTrim (s : Str) : Str :=
  ((s.dropWhile isWS).reverse.dropWhile isWS).reverse

/-- `s.split(sep)` for a single-character separator; `"" → [""]`. -/
def splitOnChar (sep : Char) : Str → List Str
  | [] => [[]]
  | c :: rest =>
    if c == sep then [] :: splitOnChar sep rest
    else
      match splitOnChar sep rest with
      | [] => [[c]]
      | h :: t => (c :: h) :: t

def quoteCount (s : Str) : Nat := s.countP (fun c => c == '"')

/-- `row.split(/,(?=(?:(?:[^"]*"){2})*[^"]*$)/)`: split at the commas that
are followed by an even number of double quotes up to the end of the line. -/
def splitCSVLine : Str → List Str
  | [] => [[]]
  | c :: rest =>
    if c == ',' && quoteCount rest % 2 == 0 then [] :: splitCSVLine rest
    else
      match splitCSVLine rest with
      | [] => [[c]]
      | h :: t => (c :: h) :: t

/-- `field.replace(/^"|"$/g, '')`: drop one leading double quote if present,
then one trailing double quote if (still) present. -/
def stripQuotes (s : Str) : Str :=
  let s1 := match s with
    | '"' :: t => t
    | _ => s
  match s1.reverse with
  | '"' :: t => t.reverse
  | _ => s1

/-- `field.trim().replace(/^"|"$/g, '')`. -/
def cleanField (s : Str) : Str := stripQuotes (jsTrim s)

/-- Lines 72–75 / 529–536: `csvText.trim().split('\n').map(row => row.split(...).map(...))`. -/
def parseRows (csvText : Str) : List (List Str) :=
  (splitOnChar '\n' (jsTrim csvText)).map (fun row => (splitCSVLine row).map cleanField)

def digit? (c : Char) : Bool := '0' ≤ c && c ≤ '9'

def digVal (c : Char) : Nat := c.toNat - 48

def natOfDigits (l : List Nat) : Nat := l.foldl (fun a d => 10 * a + d) 0

/-- `parseInt(s, 10)`: skip leading whitespace, optional sign, then the
longest digit prefix; `none` (NaN) when no digit follows. -/
def parseIntJS (s : Str) : Option Int :=
  let s1 := s.dropWhile isWS
  let signed : Int × Str :=
    match s1 with
    | c :: t => if c = '-' then (-1, t) else if c = '+' then (1, t) else (1, c :: t)
    | [] => (1, [])
  match signed.2.takeWhile digit? with
  | [] => none
  | ds => some (signed.1 * (natOfDigits (ds.map digVal) : Int))

/-- Line 83 / 544: `parseInt(waitTime, 10) || 0` (NaN and −0 both give 0;
in `Int` the value 0 is already canonical, so `getD 0` is exact). -/
def numericWait (s : Str) : Int := (parseIntJS s).getD 0

def jsToLowerChar (c : Char) : Char :=
  if 'A' ≤ c && c ≤ 'Z' then Char.ofNat (c.toNat + 32) else c

/-- `s.toLowerCase()` (ASCII range, which is all the comparison needs). -/
def jsToLower (s : Str) : Str := s.map jsToLowerChar

def trueLit : Str := ['t', 'r', 'u', 'e']

/-- `new Date(ms).getHours()` in a UTC runtime: floor-division keeps the
pre-1970 (negative millisecond) case correct. -/
def hoursOfMs (ms : Int) : Nat := ((ms.fdiv 3600000).emod 24).toNat

def minutesOfMs (ms : Int) : Nat := ((ms.fdiv 60000).emod 60).toNat

def digitChar (n : Nat) : Char := Char.ofNat (48 + n)

def format2 (n : Nat) : Str :=
  if n < 10 then ['0', digitChar n] else [digitChar (n / 10 % 10), digitChar (n % 10)]

/-- `currentDate.toLocaleTimeString('en-US', {hour:'2-digit', minute:'2-digit',
hour12:false})`, a zero-padded 24-hour `"HH:MM"` label. -/
def clockLabel (ms : Int) : Str :=
  format2 (hoursOfMs ms) ++ ':' :: format2 (minutesOfMs ms)

/-- `new Date('1970/01/01 ' + s).getTime()` for a well-formed `"HH:MM"`
label (the only labels the sorter ever sees), in a UTC runtime. -/
def parseClockMs (s : Str) : Int :=
  match s with
  | [h1, h2, ':', m1, m2] =>
    if digit? h1 && digit? h2 && digit? m1 && digit? m2 then
      (((10 * digVal h1 + digVal h2) * 60 + (10 * digVal m1 + digVal m2)) * 60000 : Int)
    else 0
  | _ => 0

structure RideData where
  ride_name : Str
  wait_time : Int
  last_update : Str
  is_open : Bool
  timestamp : Int
deriving DecidableEq

structure RideMaxData where
  ride_name : Str
  max_wait_time : Int
  timestamp : Int
deriving DecidableEq

structure RideMinData where
  ride_name : Str
  min_wait_time : Int
  timestamp : Int
deriving DecidableEq

structure TimeDataEntry where
  time : Str
  waitTime : Option Int
  isOpen : Bool
deriving DecidableEq

structure ProcessedData where
  currentData : List RideData
  maxData : List RideMaxData
  minData : List RideMinData
  timeData : List (Str × List TimeDataEntry)
  latestTimestamp : Option Int
deriving DecidableEq

/-- One normalized data row (lines 82–89): the quantities the loop body
derives from the five destructured fields. -/
structure Reading where
  rideKey : Str
  waitMinutes : Int
  lastUpdate : Str
  isOpen : Bool
  adjTs : Option Int
deriving DecidableEq

def hourOf (r : Reading) : Option Nat := r.adjTs.map hoursOfMs

/-- Lines 82–89: destructure `[timestamp, rideName, waitTime, lastUpdate,
isOpen]` and normalize.  A row with fewer than five fields makes
`isOpen.toLowerCase()` throw a TypeError on `undefined`, hence `none`.
`currentDate.setHours(currentDate.getHours() + 1)` is exactly +3600000 ms
in a UTC runtime; an invalid date stays invalid. -/
def normalizeRow (dateParse : Str → Option Int) : List Str → Option Reading
  | ts :: rideName :: waitTime :: lastUpdate :: isOpen :: _ =>
    some { rideKey := jsTrim rideName
           waitMinutes := numericWait waitTime
           lastUpdate := lastUpdate
           isOpen := decide (jsToLower isOpen = trueLit)
           adjTs := (dateParse ts).map (fun ms => ms + 3600000) }
  | _ => none

def mkLatest (r : Reading) (ms : Int) : RideData :=
  { ride_name := r.rideKey, wait_time := r.waitMinutes, last_update := r.lastUpdate
    is_open := r.isOpen, timestamp := ms }

def mkMax (r : Reading) (ms : Int) : RideMaxData :=
  { ride_name := r.rideKey, max_wait_time := r.waitMinutes, timestamp := ms }

def mkMin (r : Reading) (ms : Int) : RideMinData :=
  { ride_name := r.rideKey, min_wait_time := r.waitMinutes, timestamp := ms }

/-- Lines 106–115: the Latest update for one ride cell.  Result `none` is a
throw (`toISOString` on an invalid date); `some none` means no write;
`some (some v)` writes `v`.  `existingDate` re-parses the stored ISO
string, which round-trips to the stored millisecond value, and an invalid
current date has `getTime()` NaN, which loses every `>` comparison. -/
def latestCell (cur : Option RideData) (r : Reading) : Option (Option RideData) :=
  match cur, r.adjTs with
  | none, some ms => some (some (mkLatest r ms))
  | none, none => none
  | some e, some ms => if e.timestamp < ms then some (some (mkLatest r ms)) else some none
  | some _, none => some none

/-- Lines 117–124 (plain variant): the Peak update for one ride cell. -/
def maxCell (cur : Option RideMaxData) (r : Reading) : Option (Option RideMaxData) :=
  if r.isOpen then
    match cur, r.adjTs with
    | none, some ms => some (some (mkMax r ms))
    | none, none => none
    | some e, some ms =>
      if e.max_wait_time < r.waitMinutes then some (some (mkMax r ms)) else some none
    | some e, none =>
      if e.max_wait_time < r.waitMinutes then none else some none
  else some none

/-- JavaScript `x || 0` on a number that is never NaN: only 0 is falsy. -/
def jsOr0 (x : Int) : Int := if x = 0 then 0 else x

/-- Lines 581–590 (styled variant): Peak update with
`numericWaitTime > (maxWaitTimes[rideKey].max_wait_time || 0)`. -/
def maxCellStyled (cur : Option RideMaxData) (r : Reading) : Option (Option RideMaxData) :=
  if r.isOpen then
    match cur, r.adjTs with
    | none, some ms => some (some (mkMax r ms))
    | none, none => none
    | some e, some ms =>
      if jsOr0 e.max_wait_time < r.waitMinutes then some (some (mkMax r ms)) else some none
    | some e, none =>
      if jsOr0 e.max_wait_time < r.waitMinutes then none else some none
  else some none

def inTrough (r : Reading) : Bool :=
  match hourOf r with
  | some h => decide (10 ≤ h) && decide (h < 18)
  | none => false

/-- Lines 126–134 (plain variant): the Trough update for one ride cell;
guarded by `isOpen` and `currentHour >= 10 && currentHour < 18` (false on
an invalid date, whose hour is NaN). -/
def minCell (cur : Option RideMinData) (r : Reading) : Option (Option RideMinData) :=
  if r.isOpen && inTrough r then
    match cur, r.adjTs with
    | none, some ms => some (some (mkMin r ms))
    | none, none => none
    | some e, some ms =>
      if r.waitMinutes < e.min_wait_time then some (some (mkMin r ms)) else some none
    | some e, none =>
      if r.waitMinutes < e.min_wait_time then none else some none
  else some none

/-- Lines 592–603 (styled variant): Trough update with
`numericWaitTime < (minWaitTimes[rideKey].min_wait_time || Infinity)`;
a stored minimum of 0 is falsy, so the comparison is against Infinity and
always succeeds. -/
def minCellStyled (cur : Option RideMinData) (r : Reading) : Option (Option RideMinData) :=
  if r.isOpen && inTrough r then
    match cur, r.adjTs with
    | none, some ms => some (some (mkMin r ms))
    | none, none => none
    | some e, some ms =>
      if e.min_wait_time = 0 ∨ r.waitMinutes < e.min_wait_time then
        some (some (mkMin r ms))
      else some none
    | some e, none =>
      if e.min_wait_time = 0 ∨ r.waitMinutes < e.min_wait_time then none else some none
  else some none

def mkPoint (r : Reading) (ms : Int) : TimeDataEntry :=
  { time := clockLabel ms
    waitTime := if r.isOpen then some r.waitMinutes else none
    isOpen := r.isOpen }

/-- Lines 91–104: ensure the ride's series exists (even when nothing is
pushed) and append a point when `currentHour >= 8 && currentHour <= 21`. -/
def timeCell (cur : Option (List TimeDataEntry)) (r : Reading) : List TimeDataEntry :=
  let base := cur.getD []
  match r.adjTs with
  | some ms => if 8 ≤ hoursOfMs ms ∧ hoursOfMs ms ≤ 21 then base ++ [mkPoint r ms] else base
  | none => base

/-- `Record<string, T>` as an insertion-ordered association list. -/
def lookupA {β : Type} (k : Str) : List (Str × β) → Option β
  | [] => none
  | kv :: t => if kv.1 = k then some kv.2 else lookupA k t

def setA {β : Type} (k : Str) (v : β) : List (Str × β) → List (Str × β)
  | [] => [(k, v)]
  | kv :: t => if kv.1 = k then (k, v) :: t else kv :: setA k v t

structure AggState where
  latestEntries : List (Str × RideData)
  maxWaitTimes : List (Str × RideMaxData)
  minWaitTimes : List (Str × RideMinData)
  timeData : List (Str × List TimeDataEntry)

def initState : AggState := ⟨[], [], [], []⟩

def applyCell {β : Type} (m : List (Str × β)) (k : Str) :
    Option (Option β) → Option (List (Str × β))
  | none => none
  | some none => some m
  | some (some v) => some (setA k v m)

/-- One iteration of the `forEach` body (lines 82–136, plain variant): the
series bucket is touched first (it never throws), then the three rolling
cells, any of which may throw. -/
def stepReading (st : AggState) (r : Reading) : Option AggState :=
  match applyCell st.latestEntries r.rideKey
          (latestCell (lookupA r.rideKey st.latestEntries) r),
        applyCell st.maxWaitTimes r.rideKey
          (maxCell (lookupA r.rideKey st.maxWaitTimes) r),
        applyCell st.minWaitTimes r.rideKey
          (minCell (lookupA r.rideKey st.minWaitTimes) r) with
  | some latest, some maxm, some minm =>
    some { latestEntries := latest, maxWaitTimes := maxm, minWaitTimes := minm,
           timeData := setA r.rideKey (timeCell (lookupA r.rideKey st.timeData) r) st.timeData }
  | _, _, _ => none

/-- One iteration of the `forEach` body (lines 543–605, styled variant). -/
def stepReadingStyled (st : AggState) (r : Reading) : Option AggState :=
  match applyCell st.latestEntries r.rideKey
          (latestCell (lookupA r.rideKey st.latestEntries) r),
        applyCell st.maxWaitTimes r.rideKey
          (maxCellStyled (lookupA r.rideKey st.maxWaitTimes) r),
        applyCell st.minWaitTimes r.rideKey
          (minCellStyled (lookupA r.rideKey st.minWaitTimes) r) with
  | some latest, some maxm, some minm =>
    some { latestEntries := latest, maxWaitTimes := maxm, minWaitTimes := minm,
           timeData := setA r.rideKey (timeCell (lookupA r.rideKey st.timeData) r) st.timeData }
  | _, _, _ => none

def clockLT (a b : TimeDataEntry) : Bool :=
  decide (parseClockMs a.time < parseClockMs b.time)

/-- Stable insertion used to model `Array.prototype.sort` with comparator
`(a, b) => key(a) - key(b)`: ECMAScript sort is stable, and the stable
ascending reordering of a list is unique, so insertion sort is an exact
model. -/
def insertPoint (x : TimeDataEntry) : List TimeDataEntry → List TimeDataEntry
  | [] => [x]
  | h :: t => if clockLT h x then h :: insertPoint x t else x :: h :: t

def sortPoints : List TimeDataEntry → List TimeDataEntry
  | [] => []
  | h :: t => insertPoint h (sortPoints t)

/-- Lines 138–159: sort each series, take `Object.values` of the three maps,
and compute `latestTimestamp`: the reduce starts at 0 (`Math.max(0, …)`),
and a result of 0 is falsy, so it yields `null`. -/
def assemble (st : AggState) : ProcessedData :=
  let currentData := st.latestEntries.map (fun kv => kv.2)
  let maxData := st.maxWaitTimes.map (fun kv => kv.2)
  let minData := st.minWaitTimes.map (fun kv => kv.2)
  let timeData := st.timeData.map (fun kv => (kv.1, sortPoints kv.2))
  let m : Int := currentData.foldl (fun acc e => max acc e.timestamp) 0
  let latestTimestamp := if currentData.isEmpty then none else if m = 0 then none else some m
  ⟨currentData, maxData, minData, timeData, latestTimestamp⟩

/-- The normalized data rows (header dropped). -/
def readings (dateParse : Str → Option Int) (csvText : Str) : Option (List Reading) :=
  ((parseRows csvText).drop 1).mapM (normalizeRow dateParse)

/-- Lines 71–160: the plain-dashboard `processCSVData`.  Normalization is
staged before the fold; this is equivalent to the source's single loop
because both stages have no effect other than possibly throwing. -/
def processCSVData (dateParse : Str → Option Int) (csvText : Str) : Option ProcessedData := do
  let rs ← readings dateParse csvText
  let st ← rs.foldlM stepReading initState
  pure (assemble st)

/-- Lines 528–635: the styled-dashboard `processCSVData`. -/
def processCSVDataStyled (dateParse : Str → Option Int) (csvText : Str) :
    Option ProcessedData := do
  let rs ← readings dateParse csvText
  let st ← rs.foldlM stepReadingStyled initState
  pure (assemble st)

/-- A sample host date parse (digit strings read as epoch milliseconds),
used only to build concrete instances. -/
def msParse (s : Str) : Option Int :=
  if s ≠ [] ∧ s.all digit? then some (natOfDigits (s.map digVal) : Int) else none

/-- The readings of one ride key, in fold order. -/
def rsFor (k : Str) (rs : List Reading) : List Reading :=
  rs.filter (fun r => decide (r.rideKey = k))

/-- The open readings of a list, in fold order. -/
def opens (rs : List Reading) : List Reading := rs.filter (fun r => r.isOpen)

/-- The open readings inside the trough window, in fold order. -/
def troughs (rs : List Reading) : List Reading :=
  rs.filter (fun r => r.isOpen && inTrough r)

/-- The time-series points a list of readings contributes, in fold order. -/
def pointsOf (rs : List Reading) : List TimeDataEntry :=
  rs.filterMap (fun r =>
    match r.adjTs with
    | some ms =>
      if 8 ≤ hoursOfMs ms ∧ hoursOfMs ms ≤ 21 then some (mkPoint r ms) else none
    | none => none)

/-- The series cell as an always-writing update, to fit the common cell
interface. -/
def timeCellO (cur : Option (List TimeDataEntry)) (r : Reading) :
    Option (Option (List TimeDataEntry)) :=
  some (some (timeCell cur r))

/-- Run one cell update on the current value of a single ride's cell. -/
def cellStep {β : Type} (cell : Option β → Reading → Option (Option β))
    (a : Option β) (r : Reading) : Option (Option β) :=
  match cell a r with
  | none => none
  | some none => some a
  | some (some v) => some (some v)

/-- The whole fold restricted to a single ride's cell. -/
def cellFold {β : Type} (cell : Option β → Reading → Option (Option β))
    (a : Option β) (rs : List Reading) : Option (Option β) :=
  rs.foldlM (cellStep cell) a

def clockLEP (a b : TimeDataEntry) : Prop :=
  parseClockMs a.time ≤ parseClockMs b.time

/-! ### Association-list lemmas -/

theorem lookupA_setA_self {β : Type} (k : Str) (v : β) (m : List (Str × β)) :
    lookupA k (setA k v m) = some v := by
  induction m with
  | nil => simp [setA, lookupA]
  | cons kv t ih =>
    by_cases h : kv.1 = k
    · simp [setA, h, lookupA]
    · simp [setA, h, lookupA, ih]

theorem lookupA_setA_ne {β : Type} (k k' : Str) (v : β) (m : List (Str × β))
    (h : k' ≠ k) : lookupA k (setA k' v m) = lookupA k m := by
  induction m with
  | nil => simp [setA, lookupA, h]
  | cons kv t ih =>
    by_cases h1 : kv.1 = k'
    · simp [setA, h1, lookupA, h]
    · simp [setA, h1, lookupA, ih]

theorem mem_setA {β : Type} {k : Str} {v : β} {m : List (Str × β)} {kv : Str × β}
    (h : kv ∈ setA k v m) : kv = (k, v) ∨ kv ∈ m := by
  induction m with
  | nil => simpa [setA] using h
  | cons kv0 t ih =>
    by_cases h1 : kv0.1 = k
    · rw [setA, if_pos h1] at h
      rcases List.mem_cons.mp h with h2 | h2
      · left; exact h2
      · right; exact List.mem_cons_of_mem _ h2
    · rw [setA, if_neg h1] at h
      rcases List.mem_cons.mp h with h2 | h2
      · right; exact h2 ▸ List.mem_cons_self _ _
      · rcases ih h2 with h3 | h3
        · exact Or.inl h3
        · exact Or.inr (List.mem_cons_of_mem _ h3)

theorem keys_setA {β : Type} (k : Str) (v : β) (m : List (Str × β)) :
    (setA k v m).map Prod.fst =
      if k ∈ m.map Prod.fst then m.map Prod.fst else m.map Prod.fst ++ [k] := by
  induction m with
  | nil => simp [setA]
  | cons kv t ih =>
    by_cases h1 : kv.1 = k
    · rw [setA, if_pos h1, List.map_cons, List.map_cons,
        if_pos (List.mem_cons.mpr (Or.inl h1.symm))]
      rw [h1]
    · have h2 : k ∈ (kv :: t).map Prod.fst ↔ k ∈ t.map Prod.fst := by
        rw [List.map_cons, List.mem_cons]
        exact ⟨fun h => h.elim (fun h => absurd h.symm h1) id, Or.inr⟩
      rw [setA, if_neg h1, List.map_cons, ih]
      by_cases h3 : k ∈ t.map Prod.fst
      · rw [if_pos h3, if_pos (h2.mpr h3), List.map_cons]
      · rw [if_neg h3, if_neg (fun hm => h3 (h2.mp hm)), List.map_cons, List.cons_append]

theorem nodup_keys_setA {β : Type} {k : Str} {v : β} {m : List (Str × β)}
    (h : (m.map Prod.fst).Nodup) : ((setA k v m).map Prod.fst).Nodup := by
  rw [keys_setA]
  by_cases h1 : k ∈ m.map Prod.fst
  · rw [if_pos h1]; exact h
  · rw [if_neg h1, List.nodup_append]
    refine ⟨h, List.nodup_singleton k, ?_⟩
    intro a ha hb
    rw [List.mem_singleton] at hb
    exact h1 (hb ▸ ha)

theorem lookupA_mem {β : Type} {k : Str} {v : β} {m : List (Str × β)}
    (h : lookupA k m = some v) : (k, v) ∈ m := by
  induction m with
  | nil => simp [lookupA] at h
  | cons kv t ih =>
    by_cases h1 : kv.1 = k
    · rw [lookupA, if_pos h1] at h
      have : kv = (k, v) := by
        cases kv; cases h; cases h1; rfl
      exact this ▸ List.mem_cons_self _ _
    · rw [lookupA, if_neg h1] at h
      exact List.mem_cons_of_mem _ (ih h)

theorem lookupA_isSome_of_mem {β : Type} {k : Str} {v : β} {m : List (Str × β)}
    (h : (k, v) ∈ m) : (lookupA k m).isSome := by
  induction m with
  | nil => simp at h
  | cons kv t ih =>
    rcases List.mem_cons.mp h with h1 | h1
    · rw [lookupA, ← h1]; simp
    · by_cases h2 : kv.1 = k
      · rw [lookupA, if_pos h2]; simp
      · rw [lookupA, if_neg h2]; exact ih h1

theorem lookupA_eq_of_mem_nodup {β : Type} {k : Str} {v : β} {m : List (Str × β)}
    (h : (k, v) ∈ m) (hnd : (m.map Prod.fst).Nodup) : lookupA k m = some v := by
  induction m with
  | nil => simp at h
  | cons kv t ih =>
    rcases List.mem_cons.mp h with h1 | h1
    · rw [lookupA, ← h1]; simp
    · by_cases h2 : kv.1 = k
      · exfalso
        have : k ∈ t.map Prod.fst := List.mem_map.mpr ⟨(k, v), h1, rfl⟩
        rw [List.map_cons, List.nodup_cons] at hnd
        exact hnd.1 (h2 ▸ this)
      · rw [lookupA, if_neg h2]
        rw [List.map_cons, List.nodup_cons] at hnd
        exact ih h1 hnd.2

theorem lookupA_map_values {β γ : Type} (k : Str) (f : β → γ) (m : List (Str × β)) :
    lookupA k (m.map (fun kv => (kv.1, f kv.2))) = (lookupA k m).map f := by
  induction m with
  | nil => simp [lookupA]
  | cons kv t ih =>
    by_cases h1 : kv.1 = k
    · simp [lookupA, h1]
    · simp [lookupA, h1, ih]

/-! ### `find?` helpers -/

theorem find?_append_some {α : Type} {p : α → Bool} {l1 l2 : List α} {x : α}
    (h : l1.find? p = some x) : (l1 ++ l2).find? p = some x := by
  induction l1 with
  | nil => simp [List.find?] at h
  | cons a t ih =>
    by_cases h1 : p a
    · rw [List.find?_cons_of_pos _ h1] at h
      rw [List.cons_append, List.find?_cons_of_pos _ h1]
      exact h
    · rw [List.find?_cons_of_neg _ h1] at h
      rw [List.cons_append, List.find?_cons_of_neg _ h1]
      exact ih h

theorem find?_append_none {α : Type} {p : α → Bool} {l1 l2 : List α}
    (h : l1.find? p = none) : (l1 ++ l2).find? p = l2.find? p := by
  induction l1 with
  | nil => simp
  | cons a t ih =>
    by_cases h1 : p a
    · rw [List.find?_cons_of_pos _ h1] at h; cases h
    · rw [List.find?_cons_of_neg _ h1] at h
      rw [List.cons_append, List.find?_cons_of_neg _ h1]
      exact ih h

/-! ### Reduction of the fold to one ride's cell -/

theorem stepReading_eq_some {st : AggState} {r : Reading} {st' : AggState}
    (h : stepReading st r = some st') :
    applyCell st.latestEntries r.rideKey (latestCell (lookupA r.rideKey st.latestEntries) r)
        = some st'.latestEntries ∧
    applyCell st.maxWaitTimes r.rideKey (maxCell (lookupA r.rideKey st.maxWaitTimes) r)
        = some st'.maxWaitTimes ∧
    applyCell st.minWaitTimes r.rideKey (minCell (lookupA r.rideKey st.minWaitTimes) r)
        = some st'.minWaitTimes ∧
    st'.timeData = setA r.rideKey (timeCell (lookupA r.rideKey st.timeData) r) st.timeData := by
  unfold stepReading at h
  cases hl : applyCell st.latestEntries r.rideKey
      (latestCell (lookupA r.rideKey st.latestEntries) r) with
  | none => rw [hl] at h; exact absurd h (by simp)
  | some latest =>
    cases hm : applyCell st.maxWaitTimes r.rideKey
        (maxCell (lookupA r.rideKey st.maxWaitTimes) r) with
    | none => rw [hl, hm] at h; exact absurd h (by simp)
    | some maxm =>
      cases hn : applyCell st.minWaitTimes r.rideKey
          (minCell (lookupA r.rideKey st.minWaitTimes) r) with
      | none => rw [hl, hm, hn] at h; exact absurd h (by simp)
      | some minm =>
        rw [hl, hm, hn] at h
        cases h
        exact ⟨rfl, rfl, rfl, rfl⟩

theorem fold_extract {β : Type} (step : AggState → Reading → Option AggState)
    (proj : AggState → List (Str × β)) (cell : Option β → Reading → Option (Option β))
    (hstep : ∀ st r st', step st r = some st' →
      applyCell (proj st) r.rideKey (cell (lookupA r.rideKey (proj st)) r) = some (proj st')) :
    ∀ (rs : List Reading) (st0 st : AggState), rs.foldlM step st0 = some st →
      ∀ k, cellFold cell (lookupA k (proj st0)) (rsFor k rs) = some (lookupA k (proj st)) := by
  intro rs
  induction rs with
  | nil =>
    intro st0 st h k
    rw [List.foldlM_nil] at h
    cases h
    rfl
  | cons r rs ih =>
    intro st0 st h k
    rw [List.foldlM_cons] at h
    cases h1 : step st0 r with
    | none => rw [h1] at h; exact Option.noConfusion h
    | some st1 =>
      rw [h1] at h
      have h2 : List.foldlM step st1 rs = some st := h
      have hs := hstep st0 r st1 h1
      cases hc : cell (lookupA r.rideKey (proj st0)) r with
      | none => rw [hc] at hs; exact absurd hs (by simp [applyCell])
      | some o =>
        rw [hc] at hs
        by_cases hk : r.rideKey = k
        · subst hk
          rw [rsFor, List.filter_cons, if_pos (by simp)]
          rw [cellFold, List.foldlM_cons]
          have hstep1 : cellStep cell (lookupA r.rideKey (proj st0)) r
              = some (lookupA r.rideKey (proj st1)) := by
            cases o with
            | none =>
              rw [applyCell] at hs
              have hmap : proj st0 = proj st1 := by
                injection hs
              rw [cellStep, hc, hmap]
            | some v =>
              rw [applyCell] at hs
              have hmap : setA r.rideKey v (proj st0) = proj st1 := by
                injection hs
              rw [cellStep, hc, ← hmap, lookupA_setA_self]
          rw [hstep1]
          exact ih st1 st h2 r.rideKey
        · have hlook : lookupA k (proj st1) = lookupA k (proj st0) := by
            cases o with
            | none =>
              rw [applyCell] at hs
              have hmap : proj st0 = proj st1 := by injection hs
              rw [hmap]
            | some v =>
              rw [applyCell] at hs
              have hmap : setA r.rideKey v (proj st0) = proj st1 := by injection hs
              rw [← hmap, lookupA_setA_ne _ _ _ _ hk]
          rw [rsFor, List.filter_cons, if_neg (by simpa using hk)]
          rw [← hlook]
          exact ih st1 st h2 k

theorem fold_keys {β : Type} (step : AggState → Reading → Option AggState)
    (proj : AggState → List (Str × β)) (cell : Option β → Reading → Option (Option β))
    (keyOf : β → Str)
    (hstep : ∀ st r st', step st r = some st' →
      applyCell (proj st) r.rideKey (cell (lookupA r.rideKey (proj st)) r) = some (proj st'))
    (hkey : ∀ a r v, cell a r = some (some v) → keyOf v = r.rideKey) :
    ∀ (rs : List Reading) (st0 st : AggState), rs.foldlM step st0 = some st →
      ((∀ kv ∈ proj st0, keyOf kv.2 = kv.1) ∧ ((proj st0).map Prod.fst).Nodup) →
      (∀ kv ∈ proj st, keyOf kv.2 = kv.1) ∧ ((proj st).map Prod.fst).Nodup := by
  intro rs
  induction rs with
  | nil =>
    intro st0 st h hInv
    rw [List.foldlM_nil] at h
    cases h
    exact hInv
  | cons r rs ih =>
    intro st0 st h hInv
    rw [List.foldlM_cons] at h
    cases h1 : step st0 r with
    | none => rw [h1] at h; exact Option.noConfusion h
    | some st1 =>
      rw [h1] at h
      have h2 : List.foldlM step st1 rs = some st := h
      have hs := hstep st0 r st1 h1
      cases hc : cell (lookupA r.rideKey (proj st0)) r with
      | none => rw [hc] at hs; exact absurd hs (by simp [applyCell])
      | some o =>
        rw [hc] at hs
        refine ih st1 st h2 ?_
        cases o with
        | none =>
          rw [applyCell] at hs
          have hmap : proj st0 = proj st1 := by injection hs
          rw [← hmap]
          exact hInv
        | some v =>
          rw [applyCell] at hs
          have hmap : setA r.rideKey v (proj st0) = proj st1 := by injection hs
          rw [← hmap]
          constructor
          · intro kv hkv
            rcases mem_setA hkv with h2 | h2
            · rw [h2]
              exact hkey _ _ _ hc
            · exact hInv.1 kv h2
          · exact nodup_keys_setA hInv.2

/-! ### Characterization of the Latest cell -/

/-- Invariant tying a Latest cell value to the readings already folded:
the value is the entry built from the first reading attaining the maximum
valid adjusted timestamp. -/
def LatestInv (pre : List Reading) (a : Option RideData) : Prop :=
  (a = none → pre = []) ∧
  ∀ e, a = some e →
    (∀ r ∈ pre, ∀ t, r.adjTs = some t → t ≤ e.timestamp) ∧
    ∃ r0, pre.find? (fun r => decide (r.adjTs = some e.timestamp)) = some r0 ∧
          e = mkLatest r0 e.timestamp

theorem LatestInv_step {pre : List Reading} {a : Option RideData} {r : Reading}
    {a1 : Option RideData} (hInv : LatestInv pre a)
    (h : cellStep latestCell a r = some a1) : LatestInv (pre ++ [r]) a1 := by
  cases a with
  | none =>
    have hpre : pre = [] := hInv.1 rfl
    subst hpre
    cases hts : r.adjTs with
    | none => simp [cellStep, latestCell, hts] at h
    | some ms =>
      simp only [cellStep, latestCell, hts, Option.some.injEq] at h
      subst h
      constructor
      · intro h; cases h
      · intro e he
        cases he
        refine ⟨?_, r, ?_, rfl⟩
        · intro r1 hr1 t ht
          rcases List.mem_singleton.mp hr1 with rfl
          rw [hts] at ht
          cases ht
          exact le_refl _
        · rw [List.nil_append]
          exact List.find?_cons_of_pos _ (by simp [hts, mkLatest])
  | some e =>
    have hInv2 := hInv.2 e rfl
    cases hts : r.adjTs with
    | none =>
      simp only [cellStep, latestCell, hts, Option.some.injEq] at h
      subst h
      constructor
      · intro h; cases h
      · intro e1 he1
        cases he1
        refine ⟨?_, ?_⟩
        · intro r1 hr1 t ht
          rcases List.mem_append.mp hr1 with h1 | h1
          · exact hInv2.1 r1 h1 t ht
          · rcases List.mem_singleton.mp h1 with rfl
            rw [hts] at ht
            cases ht
        · rcases hInv2.2 with ⟨r0, hf, hmk⟩
          exact ⟨r0, find?_append_some hf, hmk⟩
    | some ms =>
      by_cases hlt : e.timestamp < ms
      · simp only [cellStep, latestCell, hts, if_pos hlt, Option.some.injEq] at h
        subst h
        constructor
        · intro h; cases h
        · intro e1 he1
          cases he1
          refine ⟨?_, r, ?_, rfl⟩
          · intro r1 hr1 t ht
            rcases List.mem_append.mp hr1 with h1 | h1
            · exact le_trans (hInv2.1 r1 h1 t ht) (le_of_lt hlt)
            · rcases List.mem_singleton.mp h1 with rfl
              rw [hts] at ht
              cases ht
              exact le_refl _
          · have hnone : pre.find? (fun r1 => decide (r1.adjTs = some (mkLatest r ms).timestamp))
                = none := by
              rw [List.find?_eq_none]
              intro r1 hr1
              simp only [decide_eq_true_eq]
              intro hcon
              have := hInv2.1 r1 hr1 _ hcon
              exact absurd (lt_of_lt_of_le hlt this) (lt_irrefl _)
            rw [find?_append_none hnone]
            exact List.find?_cons_of_pos _ (by simp [hts, mkLatest])
      · simp only [cellStep, latestCell, hts, if_neg hlt, Option.some.injEq] at h
        subst h
        constructor
        · intro h; cases h
        · intro e1 he1
          cases he1
          refine ⟨?_, ?_⟩
          · intro r1 hr1 t ht
            rcases List.mem_append.mp hr1 with h1 | h1
            · exact hInv2.1 r1 h1 t ht
            · rcases List.mem_singleton.mp h1 with rfl
              rw [hts] at ht
              cases ht
              exact le_of_not_lt hlt
          · rcases hInv2.2 with ⟨r0, hf, hmk⟩
            exact ⟨r0, find?_append_some hf, hmk⟩

theorem LatestInv_fold :
    ∀ (rs pre : List Reading) (a : Option RideData), LatestInv pre a →
      ∀ o, cellFold latestCell a rs = some o → LatestInv (pre ++ rs) o := by
  intro rs
  induction rs with
  | nil =>
    intro pre a hInv o h
    rw [cellFold, List.foldlM_nil] at h
    cases h
    simpa using hInv
  | cons r rs ih =>
    intro pre a hInv o h
    rw [cellFold, List.foldlM_cons] at h
    cases h1 : cellStep latestCell a r with
    | none => rw [h1] at h; exact Option.noConfusion h
    | some a1 =>
      rw [h1] at h
      have h2 : cellFold latestCell a1 rs = some o := h
      have := ih (pre ++ [r]) a1 (LatestInv_step hInv h1) o h2
      simpa using this

/-! ### Characterization of the Peak cell -/

/-- Invariant tying a Peak cell value to the readings already folded:
the value records the maximum wait among open readings and stems from the
first open reading attaining it. -/
def MaxInv (pre : List Reading) (a : Option RideMaxData) : Prop :=
  (a = none → opens pre = []) ∧
  ∀ e, a = some e →
    (∀ r ∈ opens pre, r.waitMinutes ≤ e.max_wait_time) ∧
    ∃ r0, (opens pre).find? (fun r => decide (r.waitMinutes = e.max_wait_time)) = some r0 ∧
          r0.adjTs = some e.timestamp ∧ e = mkMax r0 e.timestamp

theorem opens_append_open {pre : List Reading} {r : Reading} (hr : r.isOpen = true) :
    opens (pre ++ [r]) = opens pre ++ [r] := by
  rw [opens, List.filter_append, ← opens]
  simp [opens, List.filter_cons, hr]

theorem opens_append_closed {pre : List Reading} {r : Reading} (hr : r.isOpen = false) :
    opens (pre ++ [r]) = opens pre := by
  rw [opens, List.filter_append, ← opens]
  simp [opens, List.filter_cons, hr]

theorem MaxInv_step {pre : List Reading} {a : Option RideMaxData} {r : Reading}
    {a1 : Option RideMaxData} (hInv : MaxInv pre a)
    (h : cellStep maxCell a r = some a1) : MaxInv (pre ++ [r]) a1 := by
  cases hopen : r.isOpen with
  | false =>
    simp only [cellStep, maxCell, hopen, Bool.false_eq_true, if_false,
      Option.some.injEq] at h
    subst h
    rw [MaxInv, opens_append_closed hopen]
    exact hInv
  | true =>
    rw [MaxInv, opens_append_open hopen]
    cases a with
    | none =>
      have hpre : opens pre = [] := hInv.1 rfl
      rw [hpre]
      cases hts : r.adjTs with
      | none => simp [cellStep, maxCell, hopen, hts] at h
      | some ms =>
        simp only [cellStep, maxCell, hopen, if_true, hts, Option.some.injEq] at h
        subst h
        constructor
        · intro h; cases h
        · intro e he
          cases he
          refine ⟨?_, r, ?_, hts, rfl⟩
          · intro r1 hr1
            rcases List.mem_singleton.mp hr1 with rfl
            exact le_refl _
          · rw [List.nil_append]
            exact List.find?_cons_of_pos _ (by simp [mkMax])
    | some e =>
      have hInv2 := hInv.2 e rfl
      by_cases hlt : e.max_wait_time < r.waitMinutes
      · cases hts : r.adjTs with
        | none => simp [cellStep, maxCell, hopen, hts, hlt] at h
        | some ms =>
          simp only [cellStep, maxCell, hopen, if_true, hts, if_pos hlt,
            Option.some.injEq] at h
          subst h
          constructor
          · intro h; cases h
          · intro e1 he1
            cases he1
            refine ⟨?_, r, ?_, hts, rfl⟩
            · intro r1 hr1
              rcases List.mem_append.mp hr1 with h1 | h1
              · exact le_trans (hInv2.1 r1 h1) (le_of_lt hlt)
              · rcases List.mem_singleton.mp h1 with rfl
                exact le_refl _
            · have hnone : (opens pre).find?
                  (fun r1 => decide (r1.waitMinutes = (mkMax r ms).max_wait_time)) = none := by
                rw [List.find?_eq_none]
                intro r1 hr1
                simp only [decide_eq_true_eq]
                intro hcon
                have := hInv2.1 r1 hr1
                rw [hcon] at this
                exact absurd (lt_of_lt_of_le hlt this) (lt_irrefl _)
              rw [find?_append_none hnone]
              exact List.find?_cons_of_pos _ (by simp [mkMax])
      · cases hts : r.adjTs with
        | none =>
          simp only [cellStep, maxCell, hopen, if_true, hts, if_neg hlt,
            Option.some.injEq] at h
          subst h
          constructor
          · intro h; cases h
          · intro e1 he1
            cases he1
            rcases hInv2 with ⟨hb, r0, hf, hts0, hmk⟩
            refine ⟨?_, r0, find?_append_some hf, hts0, hmk⟩
            intro r1 hr1
            rcases List.mem_append.mp hr1 with h1 | h1
            · exact hb r1 h1
            · rcases List.mem_singleton.mp h1 with rfl
              exact le_of_not_lt hlt
        | some ms =>
          simp only [cellStep, maxCell, hopen, if_true, hts, if_neg hlt,
            Option.some.injEq] at h
          subst h
          constructor
          · intro h; cases h
          · intro e1 he1
            cases he1
            rcases hInv2 with ⟨hb, r0, hf, hts0, hmk⟩
            refine ⟨?_, r0, find?_append_some hf, hts0, hmk⟩
            intro r1 hr1
            rcases List.mem_append.mp hr1 with h1 | h1
            · exact hb r1 h1
            · rcases List.mem_singleton.mp h1 with rfl
              exact le_of_not_lt hlt

theorem MaxInv_fold :
    ∀ (rs pre : List Reading) (a : Option RideMaxData), MaxInv pre a →
      ∀ o, cellFold maxCell a rs = some o → MaxInv (pre ++ rs) o := by
  intro rs
  induction rs with
  | nil =>
    intro pre a hInv o h
    rw [cellFold, List.foldlM_nil] at h
    cases h
    simpa using hInv
  | cons r rs ih =>
    intro pre a hInv o h
    rw [cellFold, List.foldlM_cons] at h
    cases h1 : cellStep maxCell a r with
    | none => rw [h1] at h; exact Option.noConfusion h
    | some a1 =>
      rw [h1] at h
      have h2 : cellFold maxCell a1 rs = some o := h
      have := ih (pre ++ [r]) a1 (MaxInv_step hInv h1) o h2
      simpa using this

/-! ### Characterization of the Trough cell -/

theorem inTrough_adjTs {r : Reading} (h : inTrough r = true) :
    ∃ ms, r.adjTs = some ms := by
  cases hts : r.adjTs with
  | none => rw [inTrough, hourOf, hts] at h; cases h
  | some ms => exact ⟨ms, rfl⟩

/-- Invariant tying a Trough cell value to the readings already folded:
the value records the minimum wait among open, in-window readings and
stems from the first such reading attaining it. -/
def MinInv (pre : List Reading) (a : Option RideMinData) : Prop :=
  (a = none → troughs pre = []) ∧
  ∀ e, a = some e →
    (∀ r ∈ troughs pre, e.min_wait_time ≤ r.waitMinutes) ∧
    ∃ r0, (troughs pre).find? (fun r => decide (r.waitMinutes = e.min_wait_time)) = some r0 ∧
          r0.adjTs = some e.timestamp ∧ e = mkMin r0 e.timestamp

theorem troughs_append_in {pre : List Reading} {r : Reading}
    (hr : (r.isOpen && inTrough r) = true) : troughs (pre ++ [r]) = troughs pre ++ [r] := by
  rw [troughs, List.filter_append, ← troughs]
  simp [troughs, List.filter_cons, hr]

theorem troughs_append_out {pre : List Reading} {r : Reading}
    (hr : (r.isOpen && inTrough r) = false) : troughs (pre ++ [r]) = troughs pre := by
  rw [troughs, List.filter_append, ← troughs]
  simp [troughs, List.filter_cons, hr]

theorem MinInv_step {pre : List Reading} {a : Option RideMinData} {r : Reading}
    {a1 : Option RideMinData} (hInv : MinInv pre a)
    (h : cellStep minCell a r = some a1) : MinInv (pre ++ [r]) a1 := by
  cases hguard : r.isOpen && inTrough r with
  | false =>
    simp only [cellStep, minCell, hguard, Bool.false_eq_true, if_false,
      Option.some.injEq] at h
    subst h
    rw [MinInv, troughs_append_out hguard]
    exact hInv
  | true =>
    rcases inTrough_adjTs (Bool.and_elim_right hguard) with ⟨ms, hts⟩
    rw [MinInv, troughs_append_in hguard]
    cases a with
    | none =>
      have hpre : troughs pre = [] := hInv.1 rfl
      rw [hpre]
      simp only [cellStep, minCell, hguard, if_true, hts, Option.some.injEq] at h
      subst h
      constructor
      · intro h; cases h
      · intro e he
        cases he
        refine ⟨?_, r, ?_, hts, rfl⟩
        · intro r1 hr1
          rcases List.mem_singleton.mp hr1 with rfl
          exact le_refl _
        · rw [List.nil_append]
          exact List.find?_cons_of_pos _ (by simp [mkMin])
    | some e =>
      have hInv2 := hInv.2 e rfl
      by_cases hlt : r.waitMinutes < e.min_wait_time
      · simp only [cellStep, minCell, hguard, if_true, hts, if_pos hlt,
          Option.some.injEq] at h
        subst h
        constructor
        · intro h; cases h
        · intro e1 he1
          cases he1
          refine ⟨?_, r, ?_, hts, rfl⟩
          · intro r1 hr1
            rcases List.mem_append.mp hr1 with h1 | h1
            · exact le_trans (le_of_lt hlt) (hInv2.1 r1 h1)
            · rcases List.mem_singleton.mp h1 with rfl
              exact le_refl _
          · have hnone : (troughs pre).find?
                (fun r1 => decide (r1.waitMinutes = (mkMin r ms).min_wait_time)) = none := by
              rw [List.find?_eq_none]
              intro r1 hr1
              simp only [decide_eq_true_eq]
              intro hcon
              have := hInv2.1 r1 hr1
              rw [hcon] at this
              exact absurd (lt_of_lt_of_le hlt this) (lt_irrefl _)
            rw [find?_append_none hnone]
            exact List.find?_cons_of_pos _ (by simp [mkMin])
      · simp only [cellStep, minCell, hguard, if_true, hts, if_neg hlt,
          Option.some.injEq] at h
        subst h
        constructor
        · intro h; cases h
        · intro e1 he1
          cases he1
          rcases hInv2 with ⟨hb, r0, hf, hts0, hmk⟩
          refine ⟨?_, r0, find?_append_some hf, hts0, hmk⟩
          intro r1 hr1
          rcases List.mem_append.mp hr1 with h1 | h1
          · exact hb r1 h1
          · rcases List.mem_singleton.mp h1 with rfl
            exact le_of_not_lt hlt

theorem MinInv_fold :
    ∀ (rs pre : List Reading) (a : Option RideMinData), MinInv pre a →
      ∀ o, cellFold minCell a rs = some o → MinInv (pre ++ rs) o := by
  intro rs
  induction rs with
  | nil =>
    intro pre a hInv o h
    rw [cellFold, List.foldlM_nil] at h
    cases h
    simpa using hInv
  | cons r rs ih =>
    intro pre a hInv o h
    rw [cellFold, List.foldlM_cons] at h
    cases h1 : cellStep minCell a r with
    | none => rw [h1] at h; exact Option.noConfusion h
    | some a1 =>
      rw [h1] at h
      have h2 : cellFold minCell a1 rs = some o := h
      have := ih (pre ++ [r]) a1 (MinInv_step hInv h1) o h2
      simpa using this

/-! ### Characterization of the series cell -/

/-- Invariant tying a series cell value to the readings already folded. -/
def TimeInv (pre : List Reading) (a : Option (List TimeDataEntry)) : Prop :=
  (a = none → pre = []) ∧ ∀ l, a = some l → l = pointsOf pre

theorem TimeInv_step {pre : List Reading} {a : Option (List TimeDataEntry)} {r : Reading}
    {a1 : Option (List TimeDataEntry)} (hInv : TimeInv pre a)
    (h : cellStep timeCellO a r = some a1) : TimeInv (pre ++ [r]) a1 := by
  simp only [cellStep, timeCellO, Option.some.injEq] at h
  subst h
  constructor
  · intro h; cases h
  · intro l hl
    cases hl
    have hbase : timeCell a r = (a.getD []) ++ pointsOf [r] := by
      rw [timeCell, pointsOf]
      cases hts : r.adjTs with
      | none => simp [hts]
      | some ms =>
        by_cases hw : 8 ≤ hoursOfMs ms ∧ hoursOfMs ms ≤ 21
        · simp [hts, hw]
        · simp [hts, hw]
    have happ : pointsOf (pre ++ [r]) = pointsOf pre ++ pointsOf [r] := by
      rw [pointsOf, pointsOf, pointsOf, List.filterMap_append]
    rw [hbase, happ]
    cases a with
    | none =>
      rw [hInv.1 rfl]
      simp [pointsOf]
    | some l0 =>
      rw [Option.getD_some, hInv.2 l0 rfl]

theorem TimeInv_fold :
    ∀ (rs pre : List Reading) (a : Option (List TimeDataEntry)), TimeInv pre a →
      ∀ o, cellFold timeCellO a rs = some o → TimeInv (pre ++ rs) o := by
  intro rs
  induction rs with
  | nil =>
    intro pre a hInv o h
    rw [cellFold, List.foldlM_nil] at h
    cases h
    simpa using hInv
  | cons r rs ih =>
    intro pre a hInv o h
    rw [cellFold, List.foldlM_cons] at h
    cases h1 : cellStep timeCellO a r with
    | none => rw [h1] at h; exact Option.noConfusion h
    | some a1 =>
      rw [h1] at h
      have h2 : cellFold timeCellO a1 rs = some o := h
      have := ih (pre ++ [r]) a1 (TimeInv_step hInv h1) o h2
      simpa using this

/-! ### The series sorter: sortedness, stability, permutation -/

theorem clockLT_lt {a b : TimeDataEntry} (h : clockLT a b = true) :
    parseClockMs a.time < parseClockMs b.time := by
  simpa [clockLT] using h

theorem clockLT_not_lt {a b : TimeDataEntry} (h : clockLT a b = false) :
    parseClockMs b.time ≤ parseClockMs a.time := by
  simp only [clockLT, decide_eq_false_iff_not, Int.not_lt] at h
  exact h

theorem mem_insertPoint {x y : TimeDataEntry} {l : List TimeDataEntry} :
    y ∈ insertPoint x l ↔ y = x ∨ y ∈ l := by
  induction l with
  | nil => simp [insertPoint]
  | cons h t ih =>
    rw [insertPoint]
    by_cases hc : clockLT h x
    · simp only [if_pos hc, List.mem_cons, ih]
      tauto
    · simp only [if_neg hc, List.mem_cons]

theorem insertPoint_perm (x : TimeDataEntry) (l : List TimeDataEntry) :
    (insertPoint x l).Perm (x :: l) := by
  induction l with
  | nil => exact List.Perm.refl _
  | cons h t ih =>
    rw [insertPoint]
    by_cases hc : clockLT h x
    · rw [if_pos hc]
      exact (List.Perm.cons h ih).trans (List.Perm.swap x h t)
    · rw [if_neg hc]

theorem sortPoints_perm (l : List TimeDataEntry) : (sortPoints l).Perm l := by
  induction l with
  | nil => exact List.Perm.refl _
  | cons h t ih =>
    rw [sortPoints]
    exact (insertPoint_perm h (sortPoints t)).trans (List.Perm.cons h ih)

theorem pairwise_insertPoint {x : TimeDataEntry} {l : List TimeDataEntry}
    (hl : List.Pairwise clockLEP l) : List.Pairwise clockLEP (insertPoint x l) := by
  induction l with
  | nil => simp [insertPoint]
  | cons h t ih =>
    rw [List.pairwise_cons] at hl
    rw [insertPoint]
    by_cases hc : clockLT h x
    · rw [if_pos hc, List.pairwise_cons]
      refine ⟨?_, ih hl.2⟩
      intro y hy
      rcases mem_insertPoint.mp hy with rfl | hy2
      · exact le_of_lt (clockLT_lt hc)
      · exact hl.1 y hy2
    · rw [if_neg hc, List.pairwise_cons]
      refine ⟨?_, List.pairwise_cons.mpr hl⟩
      intro y hy
      rcases List.mem_cons.mp hy with rfl | hy2
      · exact clockLT_not_lt (Bool.of_not_eq_true hc)
      · exact le_trans (clockLT_not_lt (Bool.of_not_eq_true hc)) (hl.1 y hy2)

theorem sortPoints_sorted (l : List TimeDataEntry) :
    List.Pairwise clockLEP (sortPoints l) := by
  induction l with
  | nil => exact List.Pairwise.nil
  | cons h t ih =>
    rw [sortPoints]
    exact pairwise_insertPoint ih

theorem filter_insertPoint_pos {q : TimeDataEntry → Bool} {x : TimeDataEntry}
    (hx : q x = true) (hq : ∀ y, q y = true → clockLT y x = false)
    (l : List TimeDataEntry) :
    (insertPoint x l).filter q = x :: l.filter q := by
  induction l with
  | nil => simp [insertPoint, hx]
  | cons h t ih =>
    rw [insertPoint]
    by_cases hc : clockLT h x
    · rw [if_pos hc]
      have hqh : q h = false := by
        cases hqh : q h with
        | false => rfl
        | true => rw [hq h hqh] at hc; simp at hc
      rw [List.filter_cons, if_neg (by simp [hqh]), ih, List.filter_cons,
        if_neg (by simp [hqh])]
    · rw [if_neg hc, List.filter_cons, if_pos hx]

theorem filter_insertPoint_neg {q : TimeDataEntry → Bool} {x : TimeDataEntry}
    (hx : q x = false) (l : List TimeDataEntry) :
    (insertPoint x l).filter q = l.filter q := by
  induction l with
  | nil => simp [insertPoint, hx]
  | cons h t ih =>
    rw [insertPoint]
    by_cases hc : clockLT h x
    · rw [if_pos hc, List.filter_cons, List.filter_cons]
      cases hqh : q h with
      | false => simp only [Bool.false_eq_true, if_false]; exact ih
      | true => simp only [if_true]; rw [ih]
    · rw [if_neg hc, List.filter_cons, if_neg (by simp [hx])]

theorem sortPoints_stable (l : List TimeDataEntry) (c : Str) :
    (sortPoints l).filter (fun p => decide (p.time = c)) =
      l.filter (fun p => decide (p.time = c)) := by
  induction l with
  | nil => rfl
  | cons h t ih =>
    rw [sortPoints]
    by_cases hh : h.time = c
    · rw [filter_insertPoint_pos (by simp [hh]) ?_ (sortPoints t), ih,
        List.filter_cons, if_pos (by simp [hh])]
      intro y hy
      have hyc : y.time = c := by simpa using hy
      simp [clockLT, hyc, hh]
    · rw [filter_insertPoint_neg (by simp [hh]) (sortPoints t), ih,
        List.filter_cons, if_neg (by simp [hh])]

/-! ### The final `latestTimestamp` reduce -/

theorem foldl_max_spec (l : List RideData) :
    ∀ a : Int,
      a ≤ l.foldl (fun acc e => max acc e.timestamp) a ∧
      (∀ e ∈ l, e.timestamp ≤ l.foldl (fun acc e => max acc e.timestamp) a) ∧
      (l.foldl (fun acc e => max acc e.timestamp) a = a ∨
        ∃ e ∈ l, e.timestamp = l.foldl (fun acc e => max acc e.timestamp) a) := by
  induction l with
  | nil => intro a; exact ⟨le_refl _, by simp, Or.inl rfl⟩
  | cons e t ih =>
    intro a
    rw [List.foldl_cons]
    rcases ih (max a e.timestamp) with ⟨h1, h2, h3⟩
    refine ⟨le_trans (le_max_left _ _) h1, ?_, ?_⟩
    · intro e1 he1
      rcases List.mem_cons.mp he1 with rfl | he2
      · exact le_trans (le_max_right _ _) h1
      · exact h2 e1 he2
    · rcases h3 with h3 | ⟨e1, he1, he2⟩
      · rcases le_total e.timestamp a with hle | hle
        · left; rw [h3, max_eq_left hle]
        · right
          exact ⟨e, List.mem_cons_self _ _, by rw [h3, max_eq_right hle]⟩
      · exact Or.inr ⟨e1, List.mem_cons_of_mem _ he1, he2⟩

/-! ### Unpacking a successful run -/

theorem processCSVData_eq_some {p : Str → Option Int} {csv : Str} {pd : ProcessedData}
    (h : processCSVData p csv = some pd) :
    ∃ rs st, readings p csv = some rs ∧ rs.foldlM stepReading initState = some st ∧
      pd = assemble st := by
  rw [processCSVData] at h
  cases hrs : readings p csv with
  | none => rw [hrs] at h; exact Option.noConfusion h
  | some rs =>
    rw [hrs] at h
    have h1 : (rs.foldlM stepReading initState).bind (fun st => some (assemble st))
        = some pd := h
    cases hst : rs.foldlM stepReading initState with
    | none => rw [hst] at h1; exact Option.noConfusion h1
    | some st =>
      rw [hst] at h1
      have h2 : some (assemble st) = some pd := h1
      exact ⟨rs, st, rfl, hst, (Option.some.inj h2).symm⟩

theorem latest_hstep : ∀ (st : AggState) (r : Reading) (st' : AggState),
    stepReading st r = some st' →
    applyCell st.latestEntries r.rideKey (latestCell (lookupA r.rideKey st.latestEntries) r)
      = some st'.latestEntries :=
  fun _ _ _ h => (stepReading_eq_some h).1

theorem max_hstep : ∀ (st : AggState) (r : Reading) (st' : AggState),
    stepReading st r = some st' →
    applyCell st.maxWaitTimes r.rideKey (maxCell (lookupA r.rideKey st.maxWaitTimes) r)
      = some st'.maxWaitTimes :=
  fun _ _ _ h => (stepReading_eq_some h).2.1

theorem min_hstep : ∀ (st : AggState) (r : Reading) (st' : AggState),
    stepReading st r = some st' →
    applyCell st.minWaitTimes r.rideKey (minCell (lookupA r.rideKey st.minWaitTimes) r)
      = some st'.minWaitTimes :=
  fun _ _ _ h => (stepReading_eq_some h).2.2.1

theorem time_hstep : ∀ (st : AggState) (r : Reading) (st' : AggState),
    stepReading st r = some st' →
    applyCell st.timeData r.rideKey (timeCellO (lookupA r.rideKey st.timeData) r)
      = some st'.timeData := by
  intro st r st' h
  rw [(stepReading_eq_some h).2.2.2]
  rfl

theorem assemble_currentData (st : AggState) :
    (assemble st).currentData = st.latestEntries.map (fun kv => kv.2) := rfl

theorem assemble_maxData (st : AggState) :
    (assemble st).maxData = st.maxWaitTimes.map (fun kv => kv.2) := rfl

theorem assemble_minData (st : AggState) :
    (assemble st).minData = st.minWaitTimes.map (fun kv => kv.2) := rfl

theorem assemble_timeData (st : AggState) :
    (assemble st).timeData = st.timeData.map (fun kv => (kv.1, sortPoints kv.2)) := rfl

theorem latest_hkey : ∀ (a : Option RideData) (r : Reading) (v : RideData),
    latestCell a r = some (some v) → v.ride_name = r.rideKey := by
  intro a r v h
  cases a with
  | none =>
    cases hts : r.adjTs with
    | none => simp [latestCell, hts] at h
    | some ms =>
      simp only [latestCell, hts, Option.some.injEq] at h
      rw [← h]
      rfl
  | some e =>
    cases hts : r.adjTs with
    | none => simp [latestCell, hts] at h
    | some ms =>
      by_cases hlt : e.timestamp < ms
      · simp only [latestCell, hts, if_pos hlt, Option.some.injEq] at h
        rw [← h]
        rfl
      · simp [latestCell, hts, if_neg hlt] at h

theorem max_hkey : ∀ (a : Option RideMaxData) (r : Reading) (v : RideMaxData),
    maxCell a r = some (some v) → v.ride_name = r.rideKey := by
  intro a r v h
  cases hopen : r.isOpen with
  | false => simp [maxCell, hopen] at h
  | true =>
    cases a with
    | none =>
      cases hts : r.adjTs with
      | none => simp [maxCell, hopen, hts] at h
      | some ms =>
        simp only [maxCell, hopen, if_true, hts, Option.some.injEq] at h
        rw [← h]
        rfl
    | some e =>
      by_cases hlt : e.max_wait_time < r.waitMinutes
      · cases hts : r.adjTs with
        | none => simp [maxCell, hopen, hts, hlt] at h
        | some ms =>
          simp only [maxCell, hopen, if_true, hts, if_pos hlt, Option.some.injEq] at h
          rw [← h]
          rfl
      · cases hts : r.adjTs with
        | none => simp [maxCell, hopen, hts, hlt] at h
        | some ms => simp [maxCell, hopen, hts, hlt] at h

/-! ### The claims -/

/-- What claim C1 asserts of a produced Summary: every Latest entry bounds
all of its ride's valid adjusted timestamps, and is built from the first
reading attaining its timestamp; and every ride with a reading has a
Latest entry. -/
def C1Claim (rs : List Reading) (pd : ProcessedData) : Prop :=
  (∀ e ∈ pd.currentData,
      (∀ r ∈ rsFor e.ride_name rs, ∀ t, r.adjTs = some t → t ≤ e.timestamp) ∧
      ∃ r0, (rsFor e.ride_name rs).find?
              (fun r => decide (r.adjTs = some e.timestamp)) = some r0 ∧
            e = mkLatest r0 e.timestamp) ∧
  (∀ k, rsFor k rs ≠ [] → ∃ e ∈ pd.currentData, e.ride_name = k)

/-- C1: for every input text and ride key, the Latest entry holds the reading
whose adjusted timestamp is the maximum among that ride's readings, the
first-encountered one on ties (strict-greater replacement).  Stated of the
produced Summary; inputs on which the function throws are settled under
C5/C6. -/
theorem C1_latest_first_max (p : Str → Option Int) (csv : Str)
    (pd : ProcessedData) (rs : List Reading)
    (hrs : readings p csv = some rs) (hpd : processCSVData p csv = some pd) :
    C1Claim rs pd := by
  rcases processCSVData_eq_some hpd with ⟨rs1, st, hrs1, hst, hpd1⟩
  rw [hrs] at hrs1
  cases hrs1
  subst hpd1
  have hkeys := fold_keys stepReading (fun st => st.latestEntries) latestCell
    RideData.ride_name latest_hstep latest_hkey rs initState st hst
    ⟨fun kv hkv => absurd hkv (List.not_mem_nil kv), List.nodup_nil⟩
  have hextract := fold_extract stepReading (fun st => st.latestEntries) latestCell
    latest_hstep rs initState st hst
  constructor
  · intro e he
    rw [assemble_currentData] at he
    rcases List.mem_map.mp he with ⟨kv, hkv, hkv2⟩
    have hmem : (e.ride_name, e) ∈ st.latestEntries := by
      have hk1 : kv.1 = e.ride_name := by rw [← hkv2]; exact (hkeys.1 kv hkv).symm
      have h2 : kv = (e.ride_name, e) := by
        have heta : kv = (kv.1, kv.2) := rfl
        rw [heta, hk1, hkv2]
      rw [← h2]
      exact hkv
    have hlook : lookupA e.ride_name st.latestEntries = some e :=
      lookupA_eq_of_mem_nodup hmem hkeys.2
    have hcf := hextract e.ride_name
    rw [hlook] at hcf
    have hinv := LatestInv_fold (rsFor e.ride_name rs) [] none
      ⟨fun _ => rfl, fun e1 h1 => absurd h1 (by simp)⟩ (some e) hcf
    rw [List.nil_append] at hinv
    exact hinv.2 e rfl
  · intro k hk
    have hcf := hextract k
    cases hlook : lookupA k st.latestEntries with
    | none =>
      rw [hlook] at hcf
      have hinv := LatestInv_fold (rsFor k rs) [] none
        ⟨fun _ => rfl, fun e1 h1 => absurd h1 (by simp)⟩ none hcf
      rw [List.nil_append] at hinv
      exact absurd (hinv.1 rfl) hk
    | some e =>
      rw [hlook] at hcf
      refine ⟨e, ?_, hkeys.1 (k, e) (lookupA_mem hlook)⟩
      rw [assemble_currentData]
      exact List.mem_map.mpr ⟨(k, e), lookupA_mem hlook, rfl⟩

/-- What claim C2 asserts of a produced Summary: every Peak entry bounds the
waits of its ride's open readings and is built from the first open reading
attaining the maximum (with that reading's timestamp); Peak entries exist
exactly for rides with an open reading. -/
def C2Claim (rs : List Reading) (pd : ProcessedData) : Prop :=
  (∀ e ∈ pd.maxData,
      (∀ r ∈ opens (rsFor e.ride_name rs), r.waitMinutes ≤ e.max_wait_time) ∧
      ∃ r0, (opens (rsFor e.ride_name rs)).find?
              (fun r => decide (r.waitMinutes = e.max_wait_time)) = some r0 ∧
            r0.adjTs = some e.timestamp ∧ e = mkMax r0 e.timestamp) ∧
  (∀ k, opens (rsFor k rs) ≠ [] → ∃ e ∈ pd.maxData, e.ride_name = k) ∧
  (∀ k, opens (rsFor k rs) = [] → ∀ e ∈ pd.maxData, e.ride_name ≠ k)

/-- C2: for every input text and ride key with at least one open reading, a
Peak entry exists whose `max_wait_time` is the maximum wait among that
ride's open readings, carrying the timestamp of the first open reading
attaining it; no Peak entry exists for a ride with no open reading.
Stated of the produced Summary; throwing inputs are settled under C5/C6. -/
theorem C2_peak_is_max_of_opens (p : Str → Option Int) (csv : Str)
    (pd : ProcessedData) (rs : List Reading)
    (hrs : readings p csv = some rs) (hpd : processCSVData p csv = some pd) :
    C2Claim rs pd := by
  rcases processCSVData_eq_some hpd with ⟨rs1, st, hrs1, hst, hpd1⟩
  rw [hrs] at hrs1
  cases hrs1
  subst hpd1
  have hkeys := fold_keys stepReading (fun st => st.maxWaitTimes) maxCell
    RideMaxData.ride_name max_hstep max_hkey rs initState st hst
    ⟨fun kv hkv => absurd hkv (List.not_mem_nil kv), List.nodup_nil⟩
  have hextract := fold_extract stepReading (fun st => st.maxWaitTimes) maxCell
    max_hstep rs initState st hst
  have hchar : ∀ k e, lookupA k st.maxWaitTimes = some e → MaxInv (rsFor k rs) (some e) := by
    intro k e hlook
    have hcf := hextract k
    rw [hlook] at hcf
    have hinv := MaxInv_fold (rsFor k rs) [] none
      ⟨fun _ => rfl, fun e1 h1 => absurd h1 (by simp)⟩ (some e) hcf
    rwa [List.nil_append] at hinv
  refine ⟨?_, ?_, ?_⟩
  · intro e he
    rw [assemble_maxData] at he
    rcases List.mem_map.mp he with ⟨kv, hkv, hkv2⟩
    have hmem : (e.ride_name, e) ∈ st.maxWaitTimes := by
      have hk1 : kv.1 = e.ride_name := by rw [← hkv2]; exact (hkeys.1 kv hkv).symm
      have h2 : kv = (e.ride_name, e) := by
        have heta : kv = (kv.1, kv.2) := rfl
        rw [heta, hk1, hkv2]
      rw [← h2]
      exact hkv
    exact (hchar e.ride_name e (lookupA_eq_of_mem_nodup hmem hkeys.2)).2 e rfl
  · intro k hk
    have hcf := hextract k
    cases hlook : lookupA k st.maxWaitTimes with
    | none =>
      rw [hlook] at hcf
      have hinv := MaxInv_fold (rsFor k rs) [] none
        ⟨fun _ => rfl, fun e1 h1 => absurd h1 (by simp)⟩ none hcf
      rw [List.nil_append] at hinv
      exact absurd (hinv.1 rfl) hk
    | some e =>
      refine ⟨e, ?_, hkeys.1 (k, e) (lookupA_mem hlook)⟩
      rw [assemble_maxData]
      exact List.mem_map.mpr ⟨(k, e), lookupA_mem hlook, rfl⟩
  · intro k hk e he hek
    rw [assemble_maxData] at he
    rcases List.mem_map.mp he with ⟨kv, hkv, hkv2⟩
    have hmem : (k, e) ∈ st.maxWaitTimes := by
      have hk1 : kv.1 = k := by rw [← hek, ← hkv2]; exact (hkeys.1 kv hkv).symm
      have h2 : kv = (k, e) := by
        have heta : kv = (kv.1, kv.2) := rfl
        rw [heta, hk1, hkv2]
      rw [← h2]
      exact hkv
    have hinv := hchar k e (lookupA_eq_of_mem_nodup hmem hkeys.2)
    rcases (hinv.2 e rfl).2 with ⟨r0, hf, _⟩
    rw [hk] at hf
    exact Option.noConfusion hf

/-- What claim C10 asserts of a produced Summary: the series map has an
entry exactly for the ride keys appearing in the data rows, which are
exactly the keys of the latest map. -/
def C10Claim (rs : List Reading) (pd : ProcessedData) : Prop :=
  ∀ k, ((lookupA k pd.timeData).isSome ↔ rsFor k rs ≠ []) ∧
       ((lookupA k pd.timeData).isSome ↔ ∃ e ∈ pd.currentData, e.ride_name = k)

/-- C10 (implicit): every ride key appearing in any data row gets a series
entry (an empty sequence when no reading falls in the display window), so
the series map's key set equals the latest map's key set.  Stated of the
produced Summary; throwing inputs are settled under C5/C6. -/
theorem C10_series_keys_match_latest (p : Str → Option Int) (csv : Str)
    (pd : ProcessedData) (rs : List Reading)
    (hrs : readings p csv = some rs) (hpd : processCSVData p csv = some pd) :
    C10Claim rs pd := by
  rcases processCSVData_eq_some hpd with ⟨rs1, st, hrs1, hst, hpd1⟩
  rw [hrs] at hrs1
  cases hrs1
  subst hpd1
  have hkeys := fold_keys stepReading (fun st => st.latestEntries) latestCell
    RideData.ride_name latest_hstep latest_hkey rs initState st hst
    ⟨fun kv hkv => absurd hkv (List.not_mem_nil kv), List.nodup_nil⟩
  have hextractT := fold_extract stepReading (fun st => st.timeData) timeCellO
    time_hstep rs initState st hst
  have hextractL := fold_extract stepReading (fun st => st.latestEntries) latestCell
    latest_hstep rs initState st hst
  intro k
  have hTiff : (lookupA k st.timeData).isSome ↔ rsFor k rs ≠ [] := by
    constructor
    · intro hs hemp
      have hcf := hextractT k
      rw [hemp] at hcf
      have h0 : cellFold timeCellO none ([] : List Reading) = some none := rfl
      have : some (none : Option (List TimeDataEntry)) = some (lookupA k st.timeData) := by
        rw [← h0]; exact hcf
      rw [← Option.some.inj this] at hs
      simp at hs
    · intro hne
      have hcf := hextractT k
      cases hlook : lookupA k st.timeData with
      | none =>
        rw [hlook] at hcf
        have hinv := TimeInv_fold (rsFor k rs) [] none
          ⟨fun _ => rfl, fun e1 h1 => absurd h1 (by simp)⟩ none hcf
        rw [List.nil_append] at hinv
        exact absurd (hinv.1 rfl) hne
      | some l => rfl
  have hLiff : (lookupA k st.latestEntries).isSome ↔ rsFor k rs ≠ [] := by
    constructor
    · intro hs hemp
      have hcf := hextractL k
      rw [hemp] at hcf
      have h0 : cellFold latestCell none ([] : List Reading) = some none := rfl
      have : some (none : Option RideData) = some (lookupA k st.latestEntries) := by
        rw [← h0]; exact hcf
      rw [← Option.some.inj this] at hs
      simp at hs
    · intro hne
      have hcf := hextractL k
      cases hlook : lookupA k st.latestEntries with
      | none =>
        rw [hlook] at hcf
        have hinv := LatestInv_fold (rsFor k rs) [] none
          ⟨fun _ => rfl, fun e1 h1 => absurd h1 (by simp)⟩ none hcf
        rw [List.nil_append] at hinv
        exact absurd (hinv.1 rfl) hne
      | some e => rfl
  have hmapT : lookupA k (assemble st).timeData = (lookupA k st.timeData).map sortPoints := by
    rw [assemble_timeData]
    exact lookupA_map_values k sortPoints st.timeData
  have hsomeT : (lookupA k (assemble st).timeData).isSome = (lookupA k st.timeData).isSome := by
    rw [hmapT]
    cases lookupA k st.timeData with
    | none => rfl
    | some l => rfl
  constructor
  · rw [hsomeT]; exact hTiff
  · rw [hsomeT]
    refine hTiff.trans (hLiff.symm.trans ?_)
    constructor
    · intro hs
      cases hlook : lookupA k st.latestEntries with
      | none => simp [hlook] at hs
      | some e =>
        refine ⟨e, ?_, hkeys.1 (k, e) (lookupA_mem hlook)⟩
        rw [assemble_currentData]
        exact List.mem_map.mpr ⟨(k, e), lookupA_mem hlook, rfl⟩
    · intro hex
      rcases hex with ⟨e, he, hek⟩
      rw [assemble_currentData] at he
      rcases List.mem_map.mp he with ⟨kv, hkv, hkv2⟩
      have hmem : (k, e) ∈ st.latestEntries := by
        have hk1 : kv.1 = k := by rw [← hek, ← hkv2]; exact (hkeys.1 kv hkv).symm
        have h2 : kv = (k, e) := by
          have heta : kv = (kv.1, kv.2) := rfl
          rw [heta, hk1, hkv2]
        rw [← h2]
        exact hkv
      exact lookupA_isSome_of_mem hmem

/-- What claim C7 asserts of a produced Summary: each stored series is the
stable ascending-by-clock-label sort of exactly the in-window points, so
it is sorted, a permutation of the collected points, and equal-label
points keep their fold order. -/
def C7Claim (rs : List Reading) (pd : ProcessedData) : Prop :=
  ∀ k l, lookupA k pd.timeData = some l →
    l = sortPoints (pointsOf (rsFor k rs)) ∧
    l.Perm (pointsOf (rsFor k rs)) ∧
    List.Pairwise clockLEP l ∧
    ∀ c, l.filter (fun e => decide (e.time = c)) =
         (pointsOf (rsFor k rs)).filter (fun e => decide (e.time = c))

/-- C7: a series point is appended exactly when the adjusted hour lies in
[8,21], and each ride's stored series is the stable sort of those points by
clock label parsed as a time of day: sorted non-decreasing, and points with
equal labels keep their source-row order.  Stated of the produced Summary;
throwing inputs are settled under C5/C6. -/
theorem C7_series_window_sorted_stable (p : Str → Option Int) (csv : Str)
    (pd : ProcessedData) (rs : List Reading)
    (hrs : readings p csv = some rs) (hpd : processCSVData p csv = some pd) :
    C7Claim rs pd := by
  rcases processCSVData_eq_some hpd with ⟨rs1, st, hrs1, hst, hpd1⟩
  rw [hrs] at hrs1
  cases hrs1
  subst hpd1
  have hextractT := fold_extract stepReading (fun st => st.timeData) timeCellO
    time_hstep rs initState st hst
  intro k l hl
  rw [assemble_timeData, lookupA_map_values] at hl
  cases hlook : lookupA k st.timeData with
  | none => rw [hlook] at hl; exact Option.noConfusion hl
  | some l0 =>
    rw [hlook] at hl
    have hls : l = sortPoints l0 := (Option.some.inj hl).symm
    have hcf := hextractT k
    rw [hlook] at hcf
    have hinv := TimeInv_fold (rsFor k rs) [] none
      ⟨fun _ => rfl, fun e1 h1 => absurd h1 (by simp)⟩ (some l0) hcf
    rw [List.nil_append] at hinv
    have hl0 : l0 = pointsOf (rsFor k rs) := hinv.2 l0 rfl
    subst hl0
    subst hls
    exact ⟨rfl, sortPoints_perm _, sortPoints_sorted _, fun c => sortPoints_stable _ c⟩

/-- What the amended claim C8 asserts of a produced Summary. -/
def C8Claim (pd : ProcessedData) : Prop :=
  (pd.latestTimestamp = none ↔ ∀ e ∈ pd.currentData, e.timestamp ≤ 0) ∧
  ∀ v, pd.latestTimestamp = some v →
    (∃ e ∈ pd.currentData, e.timestamp = v) ∧ ∀ e ∈ pd.currentData, e.timestamp ≤ v

theorem assemble_latestTimestamp (st : AggState) :
    (assemble st).latestTimestamp =
      (if (st.latestEntries.map (fun kv => kv.2)).isEmpty then none
       else if ((st.latestEntries.map (fun kv => kv.2)).foldl
           (fun acc e => max acc e.timestamp) 0 : Int) = 0 then none
       else some ((st.latestEntries.map (fun kv => kv.2)).foldl
           (fun acc e => max acc e.timestamp) 0)) := rfl

/-- C8 (amended): the global `latestTimestamp` is absent exactly when every
Latest entry's adjusted timestamp is at or before the Unix epoch (in
particular when there are no entries at all); when present it is the
maximum timestamp over the Latest entries.  The original "absent iff the
reading sequence is empty" fails: `Math.max(…, 0)` and the falsy check
turn an all-pre-epoch day into `null`. -/
theorem C8_latestTimestamp_amended (p : Str → Option Int) (csv : Str)
    (pd : ProcessedData) (hpd : processCSVData p csv = some pd) : C8Claim pd := by
  rcases processCSVData_eq_some hpd with ⟨rs, st, hrs, hst, hpd1⟩
  subst hpd1
  rcases foldl_max_spec (st.latestEntries.map (fun kv => kv.2)) 0 with ⟨h1, h2, h3⟩
  rw [C8Claim, assemble_latestTimestamp, assemble_currentData]
  by_cases hemp : (st.latestEntries.map (fun kv => kv.2)).isEmpty
  · rw [if_pos hemp]
    have hnil : st.latestEntries.map (fun kv => kv.2) = [] := by
      simpa [List.isEmpty_iff] using hemp
    rw [hnil]
    refine ⟨⟨fun _ e he => absurd he (List.not_mem_nil e), fun _ => rfl⟩, ?_⟩
    intro v hv
    exact Option.noConfusion hv
  · rw [if_neg hemp]
    by_cases hz : ((st.latestEntries.map (fun kv => kv.2)).foldl
        (fun acc e => max acc e.timestamp) 0 : Int) = 0
    · rw [if_pos hz]
      refine ⟨⟨fun _ e he => ?_, fun _ => rfl⟩, ?_⟩
      · rw [← hz]
        exact h2 e he
      · intro v hv
        exact Option.noConfusion hv
    · rw [if_neg hz]
      constructor
      · constructor
        · intro hcon
          exact Option.noConfusion hcon
        · intro hall
          exfalso
          rcases h3 with h3 | ⟨e, he, hets⟩
          · exact hz h3
          · have hle0 := hall e he
            rw [hets] at hle0
            exact hz (le_antisymm hle0 h1)
      · intro v hv
        have hv2 := Option.some.inj hv
        rcases h3 with h3 | ⟨e, he, hets⟩
        · exact absurd h3 hz
        · exact ⟨⟨e, he, by rw [hets, hv2]⟩, fun e1 he1 => by rw [← hv2]; exact h2 e1 he1⟩

/-! ### Equivalence of the two variants outside the Trough accumulator -/

theorem maxCellStyled_eq (a : Option RideMaxData) (r : Reading) :
    maxCellStyled a r = maxCell a r := by
  have hj : ∀ e : RideMaxData, jsOr0 e.max_wait_time = e.max_wait_time := by
    intro e
    rw [jsOr0]
    by_cases h : e.max_wait_time = 0
    · rw [if_pos h, h]
    · rw [if_neg h]
  cases a with
  | none => cases hts : r.adjTs <;> cases hopen : r.isOpen <;>
      simp [maxCell, maxCellStyled, hts, hopen]
  | some e => cases hts : r.adjTs <;> cases hopen : r.isOpen <;>
      simp [maxCell, maxCellStyled, hts, hopen, hj]

theorem minCell_isSome (a : Option RideMinData) (r : Reading) :
    (minCell a r).isSome = true := by
  cases hguard : r.isOpen && inTrough r with
  | false => simp [minCell, hguard]
  | true =>
    rcases inTrough_adjTs (Bool.and_elim_right hguard) with ⟨ms, hts⟩
    cases a with
    | none => simp [minCell, hguard, hts]
    | some e =>
      by_cases hlt : r.waitMinutes < e.min_wait_time
      · simp [minCell, hguard, hts, hlt]
      · simp [minCell, hguard, hts, hlt]

theorem minCellStyled_isSome (a : Option RideMinData) (r : Reading) :
    (minCellStyled a r).isSome = true := by
  cases hguard : r.isOpen && inTrough r with
  | false => simp [minCellStyled, hguard]
  | true =>
    rcases inTrough_adjTs (Bool.and_elim_right hguard) with ⟨ms, hts⟩
    cases a with
    | none => simp [minCellStyled, hguard, hts]
    | some e =>
      by_cases hc : e.min_wait_time = 0 ∨ r.waitMinutes < e.min_wait_time
      · simp [minCellStyled, hguard, hts, hc]
      · simp [minCellStyled, hguard, hts, hc]

theorem applyCell_isSome {β : Type} (m : List (Str × β)) (k : Str) {c : Option (Option β)}
    (h : c.isSome = true) : (applyCell m k c).isSome = true := by
  cases c with
  | none => simp at h
  | some o => cases o <;> rfl

/-- The two loop bodies agree on everything except the Trough accumulator. -/
def AgreeAMT (s t : AggState) : Prop :=
  s.latestEntries = t.latestEntries ∧ s.maxWaitTimes = t.maxWaitTimes ∧ s.timeData = t.timeData

theorem step_rel {s t : AggState} (hR : AgreeAMT s t) (r : Reading) :
    (stepReading s r = none ∧ stepReadingStyled t r = none) ∨
    (∃ s1 t1, stepReading s r = some s1 ∧ stepReadingStyled t r = some t1 ∧
      AgreeAMT s1 t1) := by
  rcases hR with ⟨hL, hM, hT⟩
  rw [stepReading, stepReadingStyled, ← hL, ← hM, ← hT, maxCellStyled_eq]
  cases hA : applyCell s.latestEntries r.rideKey
      (latestCell (lookupA r.rideKey s.latestEntries) r) with
  | none => left; exact ⟨rfl, rfl⟩
  | some l =>
    cases hB : applyCell s.maxWaitTimes r.rideKey
        (maxCell (lookupA r.rideKey s.maxWaitTimes) r) with
    | none => left; exact ⟨rfl, rfl⟩
    | some mr =>
      cases hC : applyCell s.minWaitTimes r.rideKey
          (minCell (lookupA r.rideKey s.minWaitTimes) r) with
      | none =>
        exfalso
        have := applyCell_isSome s.minWaitTimes r.rideKey
          (minCell_isSome (lookupA r.rideKey s.minWaitTimes) r)
        rw [hC] at this
        exact Bool.noConfusion this
      | some nr =>
        cases hD : applyCell t.minWaitTimes r.rideKey
            (minCellStyled (lookupA r.rideKey t.minWaitTimes) r) with
        | none =>
          exfalso
          have := applyCell_isSome t.minWaitTimes r.rideKey
            (minCellStyled_isSome (lookupA r.rideKey t.minWaitTimes) r)
          rw [hD] at this
          exact Bool.noConfusion this
        | some nr2 =>
          right
          exact ⟨_, _, rfl, rfl, ⟨rfl, rfl, rfl⟩⟩

theorem fold_rel : ∀ (rs : List Reading) (s t : AggState), AgreeAMT s t →
    (rs.foldlM stepReading s = none ∧ rs.foldlM stepReadingStyled t = none) ∨
    (∃ s1 t1, rs.foldlM stepReading s = some s1 ∧
      rs.foldlM stepReadingStyled t = some t1 ∧ AgreeAMT s1 t1) := by
  intro rs
  induction rs with
  | nil => intro s t h; right; exact ⟨s, t, rfl, rfl, h⟩
  | cons r rs ih =>
    intro s t h
    rw [List.foldlM_cons, List.foldlM_cons]
    rcases step_rel h r with ⟨h1, h2⟩ | ⟨s1, t1, h1, h2, h3⟩
    · left
      rw [h1, h2]
      exact ⟨rfl, rfl⟩
    · rw [h1, h2]
      exact ih s1 t1 h3

theorem processCSVData_some_readings {p : Str → Option Int} {csv : Str} {rs : List Reading}
    (hrs : readings p csv = some rs) :
    processCSVData p csv =
      (rs.foldlM stepReading initState).bind (fun st => some (assemble st)) := by
  rw [processCSVData, hrs]
  rfl

theorem processCSVDataStyled_some_readings {p : Str → Option Int} {csv : Str}
    {rs : List Reading} (hrs : readings p csv = some rs) :
    processCSVDataStyled p csv =
      (rs.foldlM stepReadingStyled initState).bind (fun st => some (assemble st)) := by
  rw [processCSVDataStyled, hrs]
  rfl

/-- C4 (amended): the plain and styled `processCSVData` agree, on every
input, on `currentData`, `maxData`, `timeData` and `latestTimestamp` (and
on throwing); they are however not extensionally equal, because the styled
variant's `min_wait_time || Infinity` treats a stored minimum of 0 as
absent and lets a later larger wait overwrite it, so `minData` can
differ. -/
theorem C4_variants_agree_off_min (p : Str → Option Int) (csv : Str) :
    (processCSVData p csv).map
        (fun pd => (pd.currentData, pd.maxData, pd.timeData, pd.latestTimestamp)) =
      (processCSVDataStyled p csv).map
        (fun pd => (pd.currentData, pd.maxData, pd.timeData, pd.latestTimestamp)) := by
  cases hrs : readings p csv with
  | none =>
    have e1 : processCSVData p csv = none := by rw [processCSVData, hrs]; rfl
    have e2 : processCSVDataStyled p csv = none := by rw [processCSVDataStyled, hrs]; rfl
    rw [e1, e2]
  | some rs =>
    rw [processCSVData_some_readings hrs, processCSVDataStyled_some_readings hrs]
    rcases fold_rel rs initState initState ⟨rfl, rfl, rfl⟩ with ⟨h1, h2⟩ | ⟨s1, t1, h1, h2, h3⟩
    · rw [h1, h2]
    · rw [h1, h2]
      rcases h3 with ⟨hL, hM, hT⟩
      have hcur : (assemble s1).currentData = (assemble t1).currentData := by
        rw [assemble_currentData, assemble_currentData, hL]
      have hmax : (assemble s1).maxData = (assemble t1).maxData := by
        rw [assemble_maxData, assemble_maxData, hM]
      have htime : (assemble s1).timeData = (assemble t1).timeData := by
        rw [assemble_timeData, assemble_timeData, hT]
      have hlts : (assemble s1).latestTimestamp = (assemble t1).latestTimestamp := by
        rw [assemble_latestTimestamp, assemble_latestTimestamp, hL]
      show some ((assemble s1).currentData, (assemble s1).maxData, (assemble s1).timeData,
          (assemble s1).latestTimestamp) =
        some ((assemble t1).currentData, (assemble t1).maxData, (assemble t1).timeData,
          (assemble t1).latestTimestamp)
      rw [hcur, hmax, htime, hlts]

/-! ### Invalid timestamps -/

/-- C6 (amended): a reading with an unparseable timestamp never wins a
comparison while an entry is stored — Latest keeps the stored entry, the
Trough guard rejects it (its hour is NaN), and Peak keeps the stored entry
unless the wait would win — but when it would create or replace an entry
(Latest with no stored entry; Peak, open, with no stored entry or a larger
wait) the fold throws at `toISOString` and `processCSVData` returns
nothing, instead of treating the row as the oldest instant. -/
theorem C6_invalid_timestamp_amended :
    (∀ (p : Str → Option Int) (csv : Str) (rs l1 : List Reading) (r : Reading)
        (l2 : List Reading),
        readings p csv = some rs → rs = l1 ++ r :: l2 → r.adjTs = none →
        (∀ r1 ∈ l1, r1.rideKey ≠ r.rideKey) → processCSVData p csv = none) ∧
    (∀ r : Reading, r.adjTs = none →
        (∀ e, latestCell (some e) r = some none) ∧
        latestCell none r = none ∧
        (∀ a, minCell a r = some none) ∧
        (∀ m, ¬(r.isOpen = true ∧ m.max_wait_time < r.waitMinutes) →
          maxCell (some m) r = some none) ∧
        (∀ m, r.isOpen = true → m.max_wait_time < r.waitMinutes →
          maxCell (some m) r = none)) := by
  constructor
  · intro p csv rs l1 r l2 hrs hsplit hts hk1
    subst hsplit
    rw [processCSVData_some_readings hrs]
    have hfold : (l1 ++ r :: l2).foldlM stepReading initState = none := by
      rw [List.foldlM_append]
      cases hf1 : l1.foldlM stepReading initState with
      | none => rfl
      | some st1 =>
        have hextract := fold_extract stepReading (fun st => st.latestEntries) latestCell
          latest_hstep l1 initState st1 hf1 r.rideKey
        have hempty : rsFor r.rideKey l1 = [] := by
          rw [rsFor, List.filter_eq_nil_iff]
          intro a ha
          simp only [decide_eq_true_eq]
          exact hk1 a ha
        rw [hempty] at hextract
        have hlook : lookupA r.rideKey st1.latestEntries = none := by
          have h0 : cellFold latestCell
              (lookupA r.rideKey ((fun st => st.latestEntries) initState)) [] = some none := rfl
          rw [h0] at hextract
          exact (Option.some.inj hextract).symm
        have hcell : latestCell (lookupA r.rideKey st1.latestEntries) r = none := by
          rw [hlook]
          simp [latestCell, hts]
        have hstep1 : stepReading st1 r = none := by
          rw [stepReading, hcell]
          rfl
        have htail : (r :: l2).foldlM stepReading st1 = none := by
          rw [List.foldlM_cons, hstep1]
          rfl
        exact htail
    rw [hfold]
    rfl
  · intro r hts
    refine ⟨?_, ?_, ?_, ?_, ?_⟩
    · intro e
      simp [latestCell, hts]
    · simp [latestCell, hts]
    · intro a
      have hg : (r.isOpen && inTrough r) = false := by
        have : inTrough r = false := by
          rw [inTrough, hourOf, hts]
          rfl
        rw [this, Bool.and_false]
      cases a with
      | none => simp [minCell, hg]
      | some e => simp [minCell, hg]
    · intro m hm
      cases hopen : r.isOpen with
      | false => simp [maxCell, hopen]
      | true =>
        have hlt : ¬m.max_wait_time < r.waitMinutes := fun hc => hm ⟨hopen, hc⟩
        simp [maxCell, hopen, hts, hlt]
    · intro m hopen hlt
      simp [maxCell, hopen, hts, hlt]

/-! ### Wait-time normalization -/

/-- Spec-side reading of "parse as integer": the field is precisely an
optionally signed, nonempty decimal numeral. -/
def decIntValue (s : Str) : Option Int :=
  match s with
  | [] => none
  | c :: t =>
    if c = '-' then
      if t ≠ [] ∧ t.all digit? then some (-(natOfDigits (t.map digVal) : Int)) else none
    else if c = '+' then
      if t ≠ [] ∧ t.all digit? then some ((natOfDigits (t.map digVal) : Int)) else none
    else if (c :: t).all digit? then some ((natOfDigits ((c :: t).map digVal) : Int))
    else none

theorem takeWhile_all_digits {l : Str} (h : ∀ x ∈ l, digit? x = true) :
    l.takeWhile digit? = l := by
  induction l with
  | nil => rfl
  | cons a t ih =>
    rw [List.takeWhile_cons, if_pos (h a (List.mem_cons_self a t))]
    rw [ih (fun x hx => h x (List.mem_cons_of_mem a hx))]

theorem isWS_of_digit {c : Char} (h : digit? c = true) : isWS c = false := by
  cases hw : isWS c with
  | false => rfl
  | true =>
    exfalso
    rw [isWS] at hw
    simp only [Bool.or_eq_true, beq_iff_eq] at hw
    rcases hw with ((((h1 | h1) | h1) | h1) | h1) | h1 <;> rw [h1] at h <;>
      exact absurd h (by decide)

theorem digit_ne_minus {c : Char} (h : digit? c = true) : ¬c = '-' :=
  fun he => absurd (he ▸ h) (by decide)

theorem digit_ne_plus {c : Char} (h : digit? c = true) : ¬c = '+' :=
  fun he => absurd (he ▸ h) (by decide)

theorem parseIntJS_minus (t : Str) :
    parseIntJS ('-' :: t) =
      (match t.takeWhile digit? with
       | [] => none
       | ds => some (-1 * (natOfDigits (ds.map digVal) : Int))) := rfl

theorem parseIntJS_plus (t : Str) :
    parseIntJS ('+' :: t) =
      (match t.takeWhile digit? with
       | [] => none
       | ds => some (1 * (natOfDigits (ds.map digVal) : Int))) := rfl

theorem parseIntJS_digit_head {c : Char} (hc : digit? c = true) (t : Str) :
    parseIntJS (c :: t) =
      (match (c :: t).takeWhile digit? with
       | [] => none
       | ds => some (1 * (natOfDigits (ds.map digVal) : Int))) := by
  have h1 : isWS c = false := isWS_of_digit hc
  simp only [parseIntJS, List.dropWhile_cons, h1, Bool.false_eq_true, if_false,
    if_neg (digit_ne_minus hc), if_neg (digit_ne_plus hc)]

/-- C9 (amended): the normalized wait is an integer but not necessarily a
non-negative one: a field that is a signed decimal numeral yields exactly
its (possibly negative) value, a field with no leading integer yields 0,
and a five-field row is never rejected, its wait being exactly
`parseInt(waitTime, 10) || 0`. -/
theorem C9_waitMinutes_amended :
    (∀ (s : Str) (n : Int), decIntValue s = some n → numericWait s = n) ∧
    (∀ s : Str, parseIntJS s = none → numericWait s = 0) ∧
    (∀ (p : Str → Option Int) (ts name w lu io : Str) (rest : List Str),
        ∃ r, normalizeRow p (ts :: name :: w :: lu :: io :: rest) = some r ∧
          r.waitMinutes = numericWait w) := by
  refine ⟨?_, ?_, ?_⟩
  · intro s n h
    cases s with
    | nil => simp [decIntValue] at h
    | cons c t =>
      rw [decIntValue] at h
      by_cases hm : c = '-'
      · rw [if_pos hm] at h
        by_cases hd : t ≠ [] ∧ t.all digit?
        · rw [if_pos hd] at h
          have hn := Option.some.inj h
          subst hm
          rcases hd with ⟨hne, hall⟩
          have htw : t.takeWhile digit? = t :=
            takeWhile_all_digits (List.all_eq_true.mp hall)
          rw [numericWait, parseIntJS_minus, htw]
          cases t with
          | nil => exact absurd rfl hne
          | cons d ds =>
            show -1 * (natOfDigits ((d :: ds).map digVal) : Int) = n
            rw [neg_one_mul]
            exact hn
        · rw [if_neg hd] at h
          exact Option.noConfusion h
      · rw [if_neg hm] at h
        by_cases hp : c = '+'
        · rw [if_pos hp] at h
          by_cases hd : t ≠ [] ∧ t.all digit?
          · rw [if_pos hd] at h
            have hn := Option.some.inj h
            subst hp
            rcases hd with ⟨hne, hall⟩
            have htw : t.takeWhile digit? = t :=
              takeWhile_all_digits (List.all_eq_true.mp hall)
            rw [numericWait, parseIntJS_plus, htw]
            cases t with
            | nil => exact absurd rfl hne
            | cons d ds =>
              show 1 * (natOfDigits ((d :: ds).map digVal) : Int) = n
              rw [one_mul]
              exact hn
          · rw [if_neg hd] at h
            exact Option.noConfusion h
        · rw [if_neg hp] at h
          by_cases hall : (c :: t).all digit?
          · rw [if_pos hall] at h
            have hn := Option.some.inj h
            have hc : digit? c = true := by
              rcases List.all_eq_true.mp hall c (List.mem_cons_self c t) with hcc
              exact hcc
            have htw : (c :: t).takeWhile digit? = c :: t :=
              takeWhile_all_digits (List.all_eq_true.mp hall)
            rw [numericWait, parseIntJS_digit_head hc, htw]
            show 1 * (natOfDigits ((c :: t).map digVal) : Int) = n
            rw [one_mul]
            exact hn
          · rw [if_neg hall] at h
            exact Option.noConfusion h
  · intro s h
    rw [numericWait, h]
    rfl
  · intro p ts name w lu io rest
    exact ⟨_, rfl, rfl⟩

/-! ### Concrete instances -/

def csvC1 : Str := "h\n3600000,R,5,u,true\n7200000,R,9,u,true".toList

def rsC1 : List Reading :=
  [⟨['R'], 5, ['u'], true, some 7200000⟩, ⟨['R'], 9, ['u'], true, some 10800000⟩]

def pdC1 : ProcessedData :=
  ⟨[⟨['R'], 9, ['u'], true, 10800000⟩], [⟨['R'], 9, 10800000⟩], [], [(['R'], [])],
    some 10800000⟩

/-- Witness for C1: a two-reading ride, where the Latest entry is the later
reading. -/
theorem C1_latest_first_max_witness :
    readings msParse csvC1 = some rsC1 ∧ processCSVData msParse csvC1 = some pdC1 ∧
      C1Claim rsC1 pdC1 :=
  ⟨by decide, by decide, C1_latest_first_max msParse csvC1 pdC1 rsC1 (by decide) (by decide)⟩

def csvC2 : Str := "h\n3600000,A,4,u,true\n7200000,A,2,u,false".toList

def rsC2 : List Reading :=
  [⟨['A'], 4, ['u'], true, some 7200000⟩, ⟨['A'], 2, ['u'], false, some 10800000⟩]

def pdC2 : ProcessedData :=
  ⟨[⟨['A'], 2, ['u'], false, 10800000⟩], [⟨['A'], 4, 7200000⟩], [], [(['A'], [])],
    some 10800000⟩

/-- Witness for C2: the Peak entry comes from the single open reading; the
closed one is ignored. -/
theorem C2_peak_is_max_of_opens_witness :
    readings msParse csvC2 = some rsC2 ∧ processCSVData msParse csvC2 = some pdC2 ∧
      C2Claim rsC2 pdC2 :=
  ⟨by decide, by decide, C2_peak_is_max_of_opens msParse csvC2 pdC2 rsC2 (by decide) (by decide)⟩

def csvC7 : Str := "h\n28800000,B,5,u,true\n28860000,B,7,u,false".toList

def rsC7 : List Reading :=
  [⟨['B'], 5, ['u'], true, some 32400000⟩, ⟨['B'], 7, ['u'], false, some 32460000⟩]

def pdC7 : ProcessedData :=
  ⟨[⟨['B'], 7, ['u'], false, 32460000⟩], [⟨['B'], 5, 32400000⟩], [],
    [(['B'], [⟨['0', '9', ':', '0', '0'], some 5, true⟩,
              ⟨['0', '9', ':', '0', '1'], none, false⟩])],
    some 32460000⟩

/-- Witness for C7: two in-window readings give two labelled, sorted series
points (the closed one with a null wait). -/
theorem C7_series_window_sorted_stable_witness :
    readings msParse csvC7 = some rsC7 ∧ processCSVData msParse csvC7 = some pdC7 ∧
      C7Claim rsC7 pdC7 :=
  ⟨by decide, by decide,
    C7_series_window_sorted_stable msParse csvC7 pdC7 rsC7 (by decide) (by decide)⟩

def csvC8 : Str := "h\n3600000,D,5,u,true".toList

def pdC8 : ProcessedData :=
  ⟨[⟨['D'], 5, ['u'], true, 7200000⟩], [⟨['D'], 5, 7200000⟩], [], [(['D'], [])],
    some 7200000⟩

/-- Witness for C8 (amended) at a one-reading input with a post-epoch
timestamp. -/
theorem C8_latestTimestamp_amended_witness :
    processCSVData msParse csvC8 = some pdC8 ∧ C8Claim pdC8 :=
  ⟨by decide, C8_latestTimestamp_amended msParse csvC8 pdC8 (by decide)⟩

def csvC10 : Str := "h\n3600000,C,6,u,true".toList

def rsC10 : List Reading := [⟨['C'], 6, ['u'], true, some 7200000⟩]

def pdC10 : ProcessedData :=
  ⟨[⟨['C'], 6, ['u'], true, 7200000⟩], [⟨['C'], 6, 7200000⟩], [], [(['C'], [])],
    some 7200000⟩

/-- Witness for C10: one out-of-window reading still creates a series entry
(an empty one) under the same key as its Latest entry. -/
theorem C10_series_keys_match_latest_witness :
    readings msParse csvC10 = some rsC10 ∧ processCSVData msParse csvC10 = some pdC10 ∧
      C10Claim rsC10 pdC10 :=
  ⟨by decide, by decide,
    C10_series_keys_match_latest msParse csvC10 pdC10 rsC10 (by decide) (by decide)⟩

def csvC6w : Str := "h\nzz,S,7,u,false".toList

def rC6w : Reading := ⟨['S'], 7, ['u'], false, none⟩

/-- Witness for C6 (amended): a single row with an unparseable timestamp is
the first reading of its ride, so the whole pass throws. -/
theorem C6_invalid_timestamp_amended_witness : processCSVData msParse csvC6w = none :=
  C6_invalid_timestamp_amended.1 msParse csvC6w [rC6w] [] rC6w [] (by decide) rfl (by decide)
    (fun r1 h => absurd h (List.not_mem_nil r1))

/-- Witness for C9 (amended): "-7" yields −7, a non-numeric field yields 0,
and a five-field row always normalizes. -/
theorem C9_waitMinutes_amended_witness :
    numericWait ['-', '7'] = -7 ∧ numericWait ['x'] = 0 ∧
      ∃ r, normalizeRow msParse (['0'] :: ['R'] :: ['-', '7'] :: ['u'] :: trueLit :: [])
          = some r ∧ r.waitMinutes = numericWait ['-', '7'] :=
  ⟨C9_waitMinutes_amended.1 ['-', '7'] (-7) (by decide),
   C9_waitMinutes_amended.2.1 ['x'] (by decide),
   C9_waitMinutes_amended.2.2 msParse ['0'] ['R'] ['-', '7'] ['u'] trueLit []⟩

/-! ### Counterexamples and failing-input evaluations -/

def csvC5 : Str := "h\n\n0,R,5,u,true".toList

/-- C5: an interior blank line is a data row with a single field, so the
destructured `isOpen` is `undefined` and `isOpen.toLowerCase()` throws: the
whole aggregation aborts instead of returning a best-effort result. -/
theorem C5_short_row_throws : processCSVData msParse csvC5 = none := by decide

def csvC6 : Str := "h\nbad,R,5,u,true".toList

/-- Counterexample for C6: a row whose timestamp does not parse crashes the
fold (the Latest write reaches `toISOString` on an Invalid Date), so it is
not processed as an oldest-possible instant. -/
theorem C6_invalid_timestamp_counterexample : processCSVData msParse csvC6 = none := by
  decide

def preEpochParse : Str → Option Int := fun s => if s = ['X'] then some (-3600000) else none

def csvC8x : Str := "h\nX,R,5,u,true".toList

/-- Counterexample for C8: one valid reading whose adjusted timestamp is the
Unix epoch yields a Summary with a non-empty `currentData` but an absent
`latestTimestamp` (the reduce starts at 0 and 0 is falsy). -/
theorem C8_latestTimestamp_counterexample :
    processCSVData preEpochParse csvC8x =
      some ⟨[⟨['R'], 5, ['u'], true, 0⟩], [⟨['R'], 5, 0⟩], [], [(['R'], [])], none⟩ := by
  decide

def csvC9 : Str := "h\n0,R,-5,u,true".toList

/-- Counterexample for C9: the field "-5" parses to −5, which enters the
Latest and Peak accumulators, so `waitMinutes ≥ 0` fails. -/
theorem C9_waitMinutes_counterexample :
    readings msParse csvC9 = some [⟨['R'], -5, ['u'], true, some 3600000⟩] ∧
      processCSVData msParse csvC9 =
        some ⟨[⟨['R'], -5, ['u'], true, 3600000⟩], [⟨['R'], -5, 3600000⟩], [], [(['R'], [])],
          some 3600000⟩ :=
  ⟨by decide, by decide⟩

def csvC4 : Str := "h\n39600000,Q,0,u,true\n39660000,Q,3,u,true".toList

/-- Counterexample for C4: on an open ride with in-window waits 0 then 3 the
plain variant keeps the minimum 0 while the styled variant overwrites it
with 3, so the two `processCSVData` are not extensionally equal. -/
theorem C4_variants_counterexample :
    processCSVData msParse csvC4 ≠ processCSVDataStyled msParse csvC4 := by decide

def csvC3 : Str := "h\n46800000,R,0,u,true\n46860000,R,5,u,true".toList

/-- C3 at the failing input: with in-window open waits 0 then 5, the plain
variant's Trough entry is the true minimum 0, but the styled variant's
`min_wait_time || Infinity` treats the stored 0 as absent and replaces it,
reporting minimum 5. -/
theorem C3_trough_divergence :
    processCSVData msParse csvC3 =
      some ⟨[⟨['R'], 5, ['u'], true, 50460000⟩], [⟨['R'], 5, 50460000⟩],
        [⟨['R'], 0, 50400000⟩],
        [(['R'], [⟨['1', '4', ':', '0', '0'], some 0, true⟩,
                  ⟨['1', '4', ':', '0', '1'], some 5, true⟩])],
        some 50460000⟩ ∧
    processCSVDataStyled msParse csvC3 =
      some ⟨[⟨['R'], 5, ['u'], true, 50460000⟩], [⟨['R'], 5, 50460000⟩],
        [⟨['R'], 5, 50460000⟩],
        [(['R'], [⟨['1', '4', ':', '0', '0'], some 0, true⟩,
                  ⟨['1', '4', ':', '0', '1'], some 5, true⟩])],
        some 50460000⟩ :=
  ⟨by decide, by decide⟩
